import Mathlib

/-!
# ParticleSorting: the bitonic pass scheduler of `ParticleSortingApp.cpp`

A shallow embedding of `ParticleSortingApp::bitonicSort` and of the index set-up in
`ParticleSortingApp::loadAssets`, with the properties of the pass schedule proved over it.

Conventions of the embedding.

* `arraySize` is the C++ `uint` read from `mUniforms.numParticles`.  The only operations on it
  are `>>= 1`, `> 2` and `/ (2*4)`, none of which can wrap, so it is a `Nat`; every `uint` value
  is a `Nat` below `2 ^ 32` and the theorems hold for all of them.
* `stage`, `passOfStage` and `passNum` are C++ `int`s that stay in `[0, 91]` resp. below the
  number of stages (at most 31 for a 32-bit `arraySize`); they are `Nat`s.
* `assert` is modelled as live: a failing assertion aborts the run, nothing after it executes.
* The host calls of one inner-loop iteration (`setData`, the buffer bindings and `dispatch`) are
  recorded as one `PassRecord`, appended in emission order.
* The comparator kernel `bitonic_sort_by_value` is a device program outside the source file.  It
  is modelled from the specification as a kernel on 4-wide vectors that runs the work items the
  host dispatches (`globalWorkSize` of them); a dispatch with work size `0` runs nothing.
-/

namespace ParticleSorting

/-! ## Constants -/

/-- `const static int kNumSortStateBuffers = 91; // Must be >= the number of sort passes` -/
def kNumSortStateBuffers : Nat := 91

/-! ## The per-pass descriptor and what one loop iteration emits -/

/-- The fields `bitonicSort` assigns to a `sortState_t`. -/
structure sortState_t where
  stage : Nat
  pass : Nat
  passNum : Nat
  direction : Nat
  deriving DecidableEq, Repr

/-- Everything one iteration of the inner loop hands to the device:
the descriptor, the slot `setData` writes it to, the byte offset bound at buffer index 3,
the offset of the uniforms, and the two arguments of `dispatch`. -/
structure PassRecord where
  sortState : sortState_t
  slot : Nat
  bindOffset : Nat
  uniformsOffset : Nat
  globalWorkSize : Nat
  threadGroup : Nat
  deriving DecidableEq, Repr

/-- The state of a run of `bitonicSort`: the counter `passNum`, what has been emitted so far (in
emission order) and whether `assert( passNum < kNumSortStateBuffers )` has failed. -/
structure SortRun where
  passNum : Nat
  emitted : List PassRecord
  assertFailed : Bool
  deriving DecidableEq, Repr

/-! ## `bitonicSort` -/

/-- The loop `for ( uint temp = arraySize; temp > 2; temp >>= 1 ) numStages++;`
with the loop variable `temp` and the running `numStages`. -/
def numStagesLoop (temp numStages : Nat) : Nat :=
  if temp > 2 then numStagesLoop (temp >>> 1) (numStages + 1) else numStages
termination_by temp
decreasing_by
  simp only [Nat.shiftRight_eq_div_pow, pow_one]
  omega

/-- The value of `numStages` after the loop: `int numStages = 0;` then the loop from
`temp = arraySize`. -/
def numStages (arraySize : Nat) : Nat :=
  numStagesLoop arraySize 0

/-- The body of the inner loop for one `(stage, passOfStage)`.
The descriptor is written and bound and the dispatch is issued first; the capacity assertion
comes after them, and `passNum++` only runs when it holds. -/
def passBody (sizeofSortState constantsOffset arraySize stage passOfStage : Nat)
    (st : SortRun) : SortRun :=
  let sortState : sortState_t :=
    { stage := stage, pass := passOfStage, passNum := st.passNum, direction := 1 }
  let gsz := arraySize / (2 * 4)
  let global_work_size := if passOfStage ≠ 0 then gsz else gsz <<< 1
  let rec_ : PassRecord :=
    { sortState := sortState
      slot := st.passNum
      bindOffset := sizeofSortState * st.passNum
      uniformsOffset := constantsOffset
      globalWorkSize := global_work_size
      threadGroup := 32 }
  let emitted := st.emitted ++ [rec_]
  if st.passNum < kNumSortStateBuffers then
    { passNum := st.passNum + 1, emitted := emitted, assertFailed := false }
  else
    { passNum := st.passNum, emitted := emitted, assertFailed := true }

/-- The inner loop `for ( int passOfStage = stage; passOfStage >= 0; passOfStage-- )`.
The first argument is `passOfStage + 1`, so that `0` is the exit `passOfStage = -1`;
a run that has aborted executes nothing more. -/
def passLoop (sizeofSortState constantsOffset arraySize stage : Nat) :
    Nat → SortRun → SortRun
  | 0, st => st
  | passOfStage + 1, st =>
    if st.assertFailed then st
    else passLoop sizeofSortState constantsOffset arraySize stage passOfStage
      (passBody sizeofSortState constantsOffset arraySize stage passOfStage st)

/-- The outer loop `for ( int stage = 0; stage < numStages; stage++ )`.
The first argument is `numStages - stage`, the number of stages still to run. -/
def stageLoop (sizeofSortState constantsOffset arraySize : Nat) :
    Nat → Nat → SortRun → SortRun
  | 0, _, st => st
  | remaining + 1, stage, st =>
    if st.assertFailed then st
    else stageLoop sizeofSortState constantsOffset arraySize remaining (stage + 1)
      (passLoop sizeofSortState constantsOffset arraySize stage (stage + 1) st)

/-- `ParticleSortingApp::bitonicSort`, as far as the sort session goes.
`sizeofSortState` is `sizeof(sortState_t)` and `constantsOffset` is
`sizeof(myUniforms_t) * mConstantDataBufferIndex`; both types are declared outside this file. -/
def bitonicSort (sizeofSortState constantsOffset arraySize : Nat) : SortRun :=
  stageLoop sizeofSortState constantsOffset arraySize (numStages arraySize) 0
    { passNum := 0, emitted := [], assertFailed := false }

/-! ## The schedule in the words of the specification -/

/-- The passes of one stage as the specification lists them: `passOfStage` from `stage` down to
`0`, each paired with its stage. -/
def stagePasses (stage : Nat) : List (Nat × Nat) :=
  (List.range (stage + 1)).reverse.map (fun passOfStage => (stage, passOfStage))

/-- The sort session of the specification: for `stage` in `[0, numStages)`, the passes of that
stage, in this order. -/
def schedule (numStages : Nat) : List (Nat × Nat) :=
  (List.range numStages).flatMap stagePasses

/-- The record the specification attaches to the `k`-th descriptor `(stage, pass)`. -/
def recordAt (sizeofSortState constantsOffset arraySize k : Nat) (sp : Nat × Nat) : PassRecord :=
  { sortState := { stage := sp.1, pass := sp.2, passNum := k, direction := 1 }
    slot := k
    bindOffset := sizeofSortState * k
    uniformsOffset := constantsOffset
    globalWorkSize := if sp.2 ≠ 0 then arraySize / (2 * 4) else (arraySize / (2 * 4)) <<< 1
    threadGroup := 32 }

/-- The records of a list of `(stage, pass)` pairs, numbered from `k` on. -/
def recordsFrom (sizeofSortState constantsOffset arraySize : Nat) :
    Nat → List (Nat × Nat) → List PassRecord
  | _, [] => []
  | k, sp :: rest =>
    recordAt sizeofSortState constantsOffset arraySize k sp ::
      recordsFrom sizeofSortState constantsOffset arraySize (k + 1) rest

/-- The loop body run over an explicit list of `(stage, passOfStage)` pairs, with the same abort
rule as the two loops. -/
def runPasses (sizeofSortState constantsOffset arraySize : Nat) :
    List (Nat × Nat) → SortRun → SortRun
  | [], st => st
  | sp :: rest, st =>
    if st.assertFailed then st
    else runPasses sizeofSortState constantsOffset arraySize rest
      (passBody sizeofSortState constantsOffset arraySize sp.1 sp.2 st)

/-! ## `loadAssets`: the particles and the index vector -/

/-- The `Particle` struct; `V` stands for `vec3`. -/
structure Particle (V : Type) where
  position : V
  velocity : V

/-- A `glm::ivec4`. -/
structure ivec4 where
  x : Int
  y : Int
  z : Int
  w : Int
  deriving DecidableEq, Repr

/-- The components of an `ivec4` in order. -/
def ivec4.toList (v : ivec4) : List Int := [v.x, v.y, v.z, v.w]

/-- The conversion of an `unsigned int` value to `int` performed by the `ivec4` constructor. -/
def toInt32 (u : Nat) : Int :=
  if u % 2 ^ 32 < 2 ^ 31 then ((u % 2 ^ 32 : Nat) : Int) else ((u % 2 ^ 32 : Nat) : Int) - 2 ^ 32

/-- The two vectors `loadAssets` fills. -/
structure Assets (V : Type) where
  particles : List (Particle V)
  indices : List ivec4

/-- The vector `ivec4(i, i+1, i+2, i+3)` for the `unsigned int` `i`: the sums are `unsigned int`
arithmetic and each component is converted to `int`. -/
def quadAt (i : Nat) : ivec4 :=
  { x := toInt32 i, y := toInt32 ((i + 1) % 2 ^ 32), z := toInt32 ((i + 2) % 2 ^ 32),
    w := toInt32 ((i + 3) % 2 ^ 32) }

/-- The body of the loop over `i`: draw a particle, push it, and push `ivec4(i, i+1, i+2, i+3)`
when `i % 4 == 0`.  `randVec3 n` is the `n`-th vector drawn from the random generator. -/
def loadBody {V : Type} (randVec3 : Nat → V) (st : Assets V) (i : Nat) : Assets V :=
  let p : Particle V := { position := randVec3 (2 * i), velocity := randVec3 (2 * i + 1) }
  let particles := st.particles ++ [p]
  if i % 4 = 0 then
    { particles := particles, indices := st.indices ++ [quadAt i] }
  else
    { particles := particles, indices := st.indices }

/-- The loop `for ( unsigned int i = 0; i < kParticleDimension * kParticleDimension; ++i )`,
starting from two empty vectors. -/
def loadLoop {V : Type} (randVec3 : Nat → V) (kParticleDimension : Nat) : Assets V :=
  (List.range (kParticleDimension * kParticleDimension)).foldl (loadBody randVec3)
    { particles := [], indices := [] }

/-- The value of `float(n)` for an unsigned integer `n`, as the integer it denotes: IEEE-754
binary32 keeps 24 significant bits and rounds to nearest, ties to even. -/
def roundF32 (n : Nat) : Nat :=
  if n < 2 ^ 24 then n
  else
    let e := Nat.log 2 n - 23
    let q := n / 2 ^ e
    let r := n % 2 ^ e
    let half := 2 ^ (e - 1)
    let q1 := if r < half then q else if half < r then q + 1 else if q % 2 = 0 then q else q + 1
    q1 * 2 ^ e

/-- The condition of `assert( float(indices.size()) == particles.size() / 4.0f )`.
Dividing a binary32 value by `4.0f` is exact, so the right-hand side is `float(size) / 4`. -/
def indicesAssertion {V : Type} (a : Assets V) : Bool :=
  decide ((roundF32 a.indices.length : ℚ) = (roundF32 a.particles.length : ℚ) / 4)

/-- The part of `loadAssets` that builds the particles and indices; `none` when the assertion on
`indices.size()` fails. -/
def loadAssets {V : Type} (randVec3 : Nat → V) (kParticleDimension : Nat) : Option (Assets V) :=
  let a := loadLoop randVec3 kParticleDimension
  if indicesAssertion a then some a else none

/-- The index vector as the flat sequence of `int`s the device buffer holds. -/
def flatIndices {V : Type} (a : Assets V) : List Int :=
  a.indices.flatMap ivec4.toList

/-! ## The comparator kernel -/

/-- Modelled from the spec: the partner of slot `t` in an exchange at distance `d`.  Slot `t` is
the low member of its pair when `t / d` is even, and the pair is `t, t + d`; otherwise it is the
high member of the pair `t - d, t`. -/
def pairPartner (d t : Nat) : Nat :=
  if (t / d) % 2 = 0 then t + d else t - d

/-- Modelled from the spec: the work item of the comparator kernel that handles 4-wide vector
`q` of the Index Array.  For `pass = 0` every work item works inside one vector, so vector `q`
belongs to work item `q` (`arraySize / 4` work items).  For `pass > 0` a work item exchanges two
vectors at distance `2^(pass-1)` vectors, and the pair whose left vector is `q` belongs to work
item `(q / 2^pass) * 2^(pass-1) + q % 2^(pass-1)` (`arraySize / 8` work items). -/
def workItemOfQuad (pass q : Nat) : Nat :=
  if pass = 0 then q else (q / 2 ^ pass) * 2 ^ (pass - 1) + q % 2 ^ (pass - 1)

/-- Modelled from the spec: the comparison of the comparator kernel `bitonic_sort_by_value`, a
device program that is not in the source file.  The two indices at the slots `lo < hi` are
resolved to the keys of their elements (`key i` is the key of element `i`); the pair is out of
order when the keys break the direction of the pair. -/
def pairOutOfOrder (key : Nat → Int) (ascending : Bool) (indexArray : List Nat) (lo hi : Nat) :
    Bool :=
  let keyLo := key (indexArray.getD lo 0)
  let keyHi := key (indexArray.getD hi 0)
  if ascending then decide (keyHi < keyLo) else decide (keyLo < keyHi)

/-- Modelled from the spec: the slot whose entry ends in slot `t` after one compare-exchange of
the kernel at slot distance `d`, with the direction alternating by blocks of `dirBlock` slots
(the requested direction in even blocks, the opposite one in odd blocks: the bitonic butterfly).
The pair is only touched when both slots exist and the work item that handles it is one of the
`globalWorkSize` work items of the dispatch; its two slots are swapped when it is out of
order. -/
def exchangeSource (key : Nat → Int) (direction pass globalWorkSize dirBlock d : Nat)
    (indexArray : List Nat) (t : Nat) : Nat :=
  let partner := pairPartner d t
  let lo := min t partner
  let hi := max t partner
  if partner < indexArray.length ∧ workItemOfQuad pass (lo / 4) < globalWorkSize then
    let ascending : Bool := decide (((lo / dirBlock) % 2 = 0) ↔ (direction = 1))
    if pairOutOfOrder key ascending indexArray lo hi then partner else t
  else t

/-- Modelled from the spec: the Index Array after one compare-exchange of the dispatched work
items, given slot by slot.  Slot `t` lies in vector `t / 4`; its pair is exchanged by the work
item of that vector (of the left vector of the two for `pass > 0`), and only if that work item is
one of the `globalWorkSize` dispatched.  Every lane reads the array as it was before the
exchange. -/
def exchangeStep (key : Nat → Int) (direction pass globalWorkSize dirBlock d : Nat)
    (indexArray : List Nat) : List Nat :=
  (List.range indexArray.length).map
    (fun t =>
      indexArray.getD (exchangeSource key direction pass globalWorkSize dirBlock d indexArray t) 0)

/-- Modelled from the spec: one dispatch of the comparator kernel `bitonic_sort_by_value` for a
descriptor `(stage, pass, direction)` with `globalWorkSize` work items.  The kernel works on
4-wide vectors of the Index Array, and the distance `d = 2^pass` and the block size
`b = 2^(stage+1)` of the descriptor count pairs of slots (half a vector): with `arraySize / 8`
work items for `pass > 0` a work item exchanges two vectors lane by lane, at slot distance
`2 * d`; with `arraySize / 4` work items for `pass = 0` a work item works inside one vector,
where the exchange at distance one pair (`2` slots) is followed by the exchange inside the pairs
(`1` slot), which finishes the block.  In the first stage the pairs are ordered first, in
alternating directions. -/
def kernelDispatch (key : Nat → Int) (direction stage pass globalWorkSize : Nat)
    (indexArray : List Nat) : List Nat :=
  let d := 2 ^ pass
  let b := 2 ^ (stage + 1)
  if pass ≠ 0 then
    exchangeStep key direction pass globalWorkSize (2 * b) (2 * d) indexArray
  else
    let first :=
      if stage = 0 then exchangeStep key direction pass globalWorkSize 2 1 indexArray
      else indexArray
    exchangeStep key direction pass globalWorkSize (2 * b) 1
      (exchangeStep key direction pass globalWorkSize (2 * b) 2 first)

/-- Modelled from the spec: the pass of one emitted record.  The comparator kernel is dispatched
with the record's descriptor and its global work size; the thread-group size of the record only
groups the work items and does not change which of them run. -/
def comparatorPass (key : Nat → Int) (r : PassRecord) (indexArray : List Nat) : List Nat :=
  kernelDispatch key r.sortState.direction r.sortState.stage r.sortState.pass r.globalWorkSize
    indexArray

/-- The passes of a session executed in emission order. -/
def runSession (key : Nat → Int) (records : List PassRecord) (indexArray : List Nat) : List Nat :=
  records.foldl (fun a r => comparatorPass key r a) indexArray

/-- A full sort session: the records `bitonicSort` emits, executed in order by the comparator
kernel on the Index Array.  The two byte offsets of `bitonicSort` play no role for the kernel and
are set to `0`. -/
def sortSession (key : Nat → Int) (arraySize : Nat) (indexArray : List Nat) : List Nat :=
  runSession key (bitonicSort 0 0 arraySize).emitted indexArray

/-- The keys of the elements in Index Array order. -/
def keysInOrder (key : Nat → Int) (indexArray : List Nat) : List Int :=
  indexArray.map key

/-- The key used in the examples: element `i` has key `i`. -/
def identityKey (i : Nat) : Int := i

/-! ## Predicates for the sorting proof

The sorting proof follows the keys through thresholds: for a bound `c`, slot `t` is marked when
it lies inside the array and the key of its entry is at least `c`. -/

/-- Slot `t` holds an entry whose key is at least `c`. -/
def keyAtLeast (key : Nat → Int) (c : Int) (indexArray : List Nat) (t : Nat) : Prop :=
  t < indexArray.length ∧ c ≤ key (indexArray.getD t 0)

/-- On `[0, h)` the marks are an interval `[a, b)` or the complement of one. -/
def IntervalForm (h : Nat) (F : Nat → Prop) : Prop :=
  ∃ a b, (∀ i, i < h → (F i ↔ (a ≤ i ∧ i < b))) ∨ (∀ i, i < h → (F i ↔ ¬ (a ≤ i ∧ i < b)))

/-- The marks `G'` come from the marks `G` by one compare-exchange at distance `h` with the
direction alternating by blocks of `B` slots: the low slot of an ascending pair (and the high
slot of a descending pair) keeps the smaller key, the other slot the larger one. -/
def ExchangeLayer (h B : Nat) (G G' : Nat → Prop) : Prop :=
  ∀ t, G' t ↔
    (if ((t / h) % 2 = 0 ↔ (t / B) % 2 = 0) then G t ∧ G (pairPartner h t)
     else G t ∨ G (pairPartner h t))

/-- Every block of `B` slots is sorted: ascending when the block index is even, descending when
it is odd. -/
def SortedBlocks (B : Nat) (G : Nat → Prop) : Prop :=
  ∀ x y, x / B = y / B → x ≤ y → (if (x / B) % 2 = 0 then (G x → G y) else (G y → G x))

/-- Every block of `h` slots is bitonic. -/
def BitonicBlocks (h : Nat) (G : Nat → Prop) : Prop :=
  ∀ v, IntervalForm h (fun i => G (v * h + i))

/-- Inside a block of `B` slots, the sub-blocks of `h` slots are in order: everything in an
earlier sub-block precedes everything in a later one, in the direction of the block. -/
def OrderedBlocks (h B : Nat) (G : Nat → Prop) : Prop :=
  ∀ x y, x / B = y / B → x / h < y / h →
    (if (x / B) % 2 = 0 then (G x → G y) else (G y → G x))

/-- The passes of a list of `(stage, pass)` pairs executed in order, each dispatched the way
`bitonicSort` dispatches it for `arraySize`. -/
def runSchedule (key : Nat → Int) (arraySize : Nat) (passes : List (Nat × Nat))
    (indexArray : List Nat) : List Nat :=
  passes.foldl (fun a sp => comparatorPass key (recordAt 0 0 arraySize 0 sp) a) indexArray

/-! ## The number of stages -/

theorem numStagesLoop_step (temp numStages : Nat) (h : 2 < temp) :
    numStagesLoop temp numStages = numStagesLoop (temp / 2) (numStages + 1) := by
  rw [numStagesLoop, if_pos h, Nat.shiftRight_eq_div_pow, pow_one]

theorem numStagesLoop_stop (temp numStages : Nat) (h : temp ≤ 2) :
    numStagesLoop temp numStages = numStages := by
  rw [numStagesLoop, if_neg (by omega)]

theorem numStagesLoop_acc (temp : Nat) :
    ∀ acc, numStagesLoop temp acc = acc + numStagesLoop temp 0 := by
  induction temp using Nat.strong_induction_on with
  | _ temp ih =>
    intro acc
    by_cases h : 2 < temp
    · rw [numStagesLoop_step temp acc h, numStagesLoop_step temp 0 h,
        ih (temp / 2) (by omega) (acc + 1), ih (temp / 2) (by omega) (0 + 1)]
      omega
    · rw [numStagesLoop_stop temp acc (by omega), numStagesLoop_stop temp 0 (by omega)]
      rfl

theorem numStages_step (arraySize : Nat) (h : 2 < arraySize) :
    numStages arraySize = numStages (arraySize / 2) + 1 := by
  unfold numStages
  rw [numStagesLoop_step arraySize 0 h, numStagesLoop_acc (arraySize / 2) (0 + 1)]
  omega

theorem numStages_stop (arraySize : Nat) (h : arraySize ≤ 2) : numStages arraySize = 0 :=
  numStagesLoop_stop arraySize 0 h

/-- More than `j` stages are counted exactly when `arraySize` is at least `3 * 2^j`. -/
theorem lt_numStages_iff (j : Nat) : ∀ arraySize, j < numStages arraySize ↔ 3 * 2 ^ j ≤ arraySize := by
  induction j with
  | zero =>
    intro a
    by_cases h : 2 < a
    · rw [numStages_step a h]; simp; omega
    · rw [numStages_stop a (by omega)]; simp; omega
  | succ j ih =>
    intro a
    by_cases h : 2 < a
    · rw [numStages_step a h, Nat.add_lt_add_iff_right, ih (a / 2),
        Nat.le_div_iff_mul_le (by norm_num), pow_succ]
      constructor <;> intro h1 <;> linarith
    · rw [numStages_stop a (by omega)]
      have : 3 ≤ 3 * 2 ^ (j + 1) := Nat.le_mul_of_pos_right 3 (by positivity)
      constructor
      · intro h1; omega
      · intro h1; omega

theorem numStages_pow_two (k : Nat) (hk : 2 ≤ k) : numStages (2 ^ k) = k - 1 := by
  obtain ⟨m, rfl⟩ : ∃ m, k = m + 2 := ⟨k - 2, by omega⟩
  have e2 : 2 ^ (m + 2) = 4 * 2 ^ m := by ring
  have e1 : 2 ^ (m + 1) = 2 * 2 ^ m := by ring
  have hpos : 0 < 2 ^ m := by positivity
  have h1 : m < numStages (2 ^ (m + 2)) := by
    rw [lt_numStages_iff]; omega
  have h2 : ¬ (m + 1 < numStages (2 ^ (m + 2))) := by
    rw [lt_numStages_iff]; omega
  omega

theorem numStages_eq_log (arraySize : Nat) (h : 3 ≤ arraySize) :
    numStages arraySize = Nat.log 2 (arraySize / 3) + 1 := by
  have hpos : arraySize / 3 ≠ 0 := by omega
  have key : ∀ j, j < numStages arraySize ↔ j < Nat.log 2 (arraySize / 3) + 1 := by
    intro j
    rw [lt_numStages_iff, Nat.lt_succ_iff, ← Nat.pow_le_iff_le_log (by norm_num) hpos,
      Nat.le_div_iff_mul_le (by norm_num), mul_comm]
  rcases Nat.lt_trichotomy (numStages arraySize) (Nat.log 2 (arraySize / 3) + 1) with h1 | h1 | h1
  · exact absurd ((key _).2 h1) (lt_irrefl _)
  · exact h1
  · exact absurd ((key _).1 h1) (lt_irrefl _)

/-! ## The two loops run the schedule -/

theorem runPasses_failed (sz co a : Nat) (l : List (Nat × Nat)) (st : SortRun)
    (h : st.assertFailed = true) : runPasses sz co a l st = st := by
  cases l with
  | nil => rfl
  | cons sp rest => simp [runPasses, h]

theorem runPasses_append (sz co a : Nat) (l₁ l₂ : List (Nat × Nat)) :
    ∀ st, runPasses sz co a (l₁ ++ l₂) st = runPasses sz co a l₂ (runPasses sz co a l₁ st) := by
  induction l₁ with
  | nil => intro st; rfl
  | cons sp rest ih =>
    intro st
    by_cases h : st.assertFailed = true
    · simp [runPasses, h, runPasses_failed]
    · simp [runPasses, h, ih]

theorem passLoop_eq_runPasses (sz co a stage : Nat) (n : Nat) :
    ∀ st, passLoop sz co a stage n st =
      runPasses sz co a ((List.range n).reverse.map (fun p => (stage, p))) st := by
  induction n with
  | zero => intro st; rfl
  | succ n ih =>
    intro st
    have e : (List.range (n + 1)).reverse = n :: (List.range n).reverse := by
      rw [List.range_succ, List.reverse_append]; rfl
    rw [e, List.map_cons, runPasses, passLoop, ih]

theorem stageLoop_eq_runPasses (sz co a : Nat) (r : Nat) :
    ∀ stage st, stageLoop sz co a r stage st =
      runPasses sz co a ((List.range' stage r).flatMap stagePasses) st := by
  induction r with
  | zero => intro stage st; rfl
  | succ r ih =>
    intro stage st
    rw [List.range'_succ, List.flatMap_cons, runPasses_append, stageLoop]
    by_cases h : st.assertFailed = true
    · simp [h, runPasses_failed]
    · simp only [h, Bool.false_eq_true, if_false, ih, passLoop_eq_runPasses, stagePasses]

theorem bitonicSort_eq_runPasses (sz co a : Nat) :
    bitonicSort sz co a = runPasses sz co a (schedule (numStages a))
      { passNum := 0, emitted := [], assertFailed := false } := by
  rw [bitonicSort, stageLoop_eq_runPasses, schedule, List.range_eq_range']

theorem passBody_eq (sz co a : Nat) (sp : Nat × Nat) (st : SortRun) :
    passBody sz co a sp.1 sp.2 st =
      if st.passNum < kNumSortStateBuffers then
        { passNum := st.passNum + 1, emitted := st.emitted ++ [recordAt sz co a st.passNum sp],
          assertFailed := false }
      else
        { passNum := st.passNum, emitted := st.emitted ++ [recordAt sz co a st.passNum sp],
          assertFailed := true } := rfl

/-- What a run over a list of passes leaves behind, from a state that has not aborted: the
counter stops at `91`, the records emitted are those of the first `92 - passNum` passes, and the
assertion has failed exactly when there was a pass with `passNum = 91`. -/
theorem runPasses_spec (sz co a : Nat) (l : List (Nat × Nat)) :
    ∀ n e, n ≤ 91 →
      runPasses sz co a l { passNum := n, emitted := e, assertFailed := false } =
        { passNum := min (n + l.length) 91
          emitted := e ++ recordsFrom sz co a n (l.take (92 - n))
          assertFailed := decide (91 < n + l.length) } := by
  induction l with
  | nil =>
    intro n e hn
    simp [runPasses, recordsFrom]
    omega
  | cons sp rest ih =>
    intro n e hn
    rw [runPasses]
    simp only [Bool.false_eq_true, if_false]
    rw [passBody_eq]
    by_cases h : n < 91
    · have h92 : 92 - n = (92 - (n + 1)) + 1 := by omega
      simp only [kNumSortStateBuffers, h, if_true]
      rw [ih (n + 1) _ (by omega), h92, List.take_succ_cons, recordsFrom]
      simp only [List.length_cons, List.append_assoc, List.singleton_append]
      congr 1
      · omega
      · have : (91 < n + 1 + rest.length) ↔ (91 < n + (rest.length + 1)) := by omega
        simp only [this]
    · have hn' : n = 91 := by omega
      subst hn'
      simp only [kNumSortStateBuffers, lt_irrefl, if_false]
      rw [runPasses_failed _ _ _ _ _ rfl]
      simp [recordsFrom]

theorem stagePasses_length (stage : Nat) : (stagePasses stage).length = stage + 1 := by
  simp [stagePasses]

theorem schedule_succ (n : Nat) : schedule (n + 1) = schedule n ++ stagePasses n := by
  simp [schedule, List.range_succ, List.flatMap_append]

theorem schedule_length_two_mul (n : Nat) : 2 * (schedule n).length = n * (n + 1) := by
  induction n with
  | zero => rfl
  | succ n ih =>
    rw [schedule_succ, List.length_append, stagePasses_length, Nat.mul_add, ih]
    ring

theorem schedule_length (n : Nat) : (schedule n).length = n * (n + 1) / 2 := by
  have := schedule_length_two_mul n
  omega

/-- The whole run of `bitonicSort` in closed form. -/
theorem bitonicSort_spec (sz co a : Nat) :
    bitonicSort sz co a =
      { passNum := min (schedule (numStages a)).length 91
        emitted := recordsFrom sz co a 0 ((schedule (numStages a)).take 92)
        assertFailed := decide (91 < (schedule (numStages a)).length) } := by
  rw [bitonicSort_eq_runPasses, runPasses_spec sz co a _ 0 [] (by omega)]
  simp

/-! ## Facts about the emitted records -/

theorem recordsFrom_length (sz co a : Nat) (l : List (Nat × Nat)) :
    ∀ k, (recordsFrom sz co a k l).length = l.length := by
  induction l with
  | nil => intro k; rfl
  | cons sp rest ih => intro k; simp [recordsFrom, ih]

theorem recordsFrom_stage_pass (sz co a : Nat) (l : List (Nat × Nat)) :
    ∀ k, (recordsFrom sz co a k l).map (fun r => (r.sortState.stage, r.sortState.pass)) = l := by
  induction l with
  | nil => intro k; rfl
  | cons sp rest ih => intro k; simp [recordsFrom, ih, recordAt]

theorem recordsFrom_passNum (sz co a : Nat) (l : List (Nat × Nat)) :
    ∀ k, (recordsFrom sz co a k l).map (fun r => r.sortState.passNum) =
      List.range' k l.length := by
  induction l with
  | nil => intro k; rfl
  | cons sp rest ih => intro k; simp [recordsFrom, ih, recordAt, List.range'_succ]

theorem recordsFrom_slot (sz co a : Nat) (l : List (Nat × Nat)) :
    ∀ k, (recordsFrom sz co a k l).map (fun r => r.slot) = List.range' k l.length := by
  induction l with
  | nil => intro k; rfl
  | cons sp rest ih => intro k; simp [recordsFrom, ih, recordAt, List.range'_succ]

theorem recordsFrom_dispatch (sz co a : Nat) (l : List (Nat × Nat)) :
    ∀ k r, r ∈ recordsFrom sz co a k l →
      r.threadGroup = 32 ∧
      r.globalWorkSize = (if r.sortState.pass ≠ 0 then a / 8 else 2 * (a / 8)) ∧
      r.bindOffset = sz * r.slot ∧ r.slot = r.sortState.passNum := by
  induction l with
  | nil => intro k r hr; simp [recordsFrom] at hr
  | cons sp rest ih =>
    intro k r hr
    rw [recordsFrom, List.mem_cons] at hr
    rcases hr with rfl | hr
    · refine ⟨rfl, ?_, rfl, rfl⟩
      simp only [recordAt, Nat.shiftLeft_eq, pow_one]
      split <;> omega
    · exact ih (k + 1) r hr

/-- The session has more than `91` passes exactly from `14` stages on. -/
theorem schedule_length_gt_iff (n : Nat) : 91 < (schedule n).length ↔ 14 ≤ n := by
  have h := schedule_length_two_mul n
  constructor
  · intro h1
    by_contra hn
    have h2 : n * (n + 1) ≤ 13 * (13 + 1) := Nat.mul_le_mul (by omega) (by omega)
    omega
  · intro h1
    have h2 : 14 * (14 + 1) ≤ n * (n + 1) := Nat.mul_le_mul h1 (by omega)
    omega

/-- The session has more than `91` passes exactly when `arraySize` is at least `24576`. -/
theorem capacity_exceeded_iff (a : Nat) :
    91 < (schedule (numStages a)).length ↔ 24576 ≤ a := by
  rw [schedule_length_gt_iff]
  have := lt_numStages_iff 13 a
  norm_num at this
  omega

theorem numStages_8 : numStages 8 = 2 := numStages_pow_two 3 (by norm_num)

theorem numStages_1024 : numStages 1024 = 9 := numStages_pow_two 10 (by norm_num)

theorem numStages_65536 : numStages 65536 = 15 := numStages_pow_two 16 (by norm_num)

theorem numStages_4 : numStages 4 = 1 := numStages_pow_two 2 (by norm_num)

theorem numStages_6 : numStages 6 = 2 := by
  simp [numStages, numStagesLoop_step, numStagesLoop_stop]

/-! ## The pass schedule of `bitonicSort` -/

theorem emitted_stage_pass (sz co a : Nat) :
    (bitonicSort sz co a).emitted.map (fun r => (r.sortState.stage, r.sortState.pass)) =
      (schedule (numStages a)).take 92 := by
  rw [bitonicSort_spec, recordsFrom_stage_pass]

theorem emitted_length (sz co a : Nat) :
    (bitonicSort sz co a).emitted.length = min 92 (schedule (numStages a)).length := by
  rw [bitonicSort_spec, recordsFrom_length, List.length_take]

theorem assertFailed_iff (sz co a : Nat) :
    (bitonicSort sz co a).assertFailed = true ↔ 24576 ≤ a := by
  rw [bitonicSort_spec, decide_eq_true_iff, capacity_exceeded_iff]

theorem bitonicSort_8 (sz co : Nat) :
    bitonicSort sz co 8 =
      { passNum := 3
        emitted := recordsFrom sz co 8 0 [(0, 0), (1, 1), (1, 0)]
        assertFailed := false } := by
  rw [bitonicSort_spec, numStages_8]
  rfl

/-- C1, as amended.  For every `arraySize` below `24576` the `(stage, pass)` pairs of the
descriptors `bitonicSort` emits, in emission order, are exactly the schedule: stages
`0 .. numStages-1` ascending and, inside a stage, the pass descending from `stage` to `0`.  For
every `arraySize` they are an initial segment of the schedule and the `k`-th emitted descriptor
has `passNum = k`.  For `arraySize = 8`, `numStages = 2` and the descriptors are
`(0,0),(1,1),(1,0)` with `passNum` `0,1,2`. -/
theorem bitonicSort_descriptors (sz co arraySize : Nat) :
    (arraySize < 24576 →
      (bitonicSort sz co arraySize).emitted.map (fun r => (r.sortState.stage, r.sortState.pass)) =
        schedule (numStages arraySize)) ∧
    (∃ n, (bitonicSort sz co arraySize).emitted.map
        (fun r => (r.sortState.stage, r.sortState.pass)) =
      (schedule (numStages arraySize)).take n) ∧
    (bitonicSort sz co arraySize).emitted.map (fun r => r.sortState.passNum) =
        List.range (bitonicSort sz co arraySize).emitted.length ∧
    numStages 8 = 2 ∧
    (bitonicSort sz co 8).emitted.map
        (fun r => (r.sortState.stage, r.sortState.pass, r.sortState.passNum)) =
      [(0, 0, 0), (1, 1, 1), (1, 0, 2)] := by
  refine ⟨?_, ⟨92, emitted_stage_pass sz co arraySize⟩, ?_, numStages_8, ?_⟩
  · intro h
    rw [emitted_stage_pass]
    apply List.take_of_length_le
    have := capacity_exceeded_iff arraySize
    omega
  · rw [bitonicSort_spec, recordsFrom_passNum, recordsFrom_length, List.range_eq_range']
  · rw [bitonicSort_8]
    rfl

theorem bitonicSort_descriptors_witness :
    (8 : Nat) < 24576 ∧
    (bitonicSort 16 0 8).emitted.map (fun r => (r.sortState.stage, r.sortState.pass)) =
      schedule (numStages 8) :=
  ⟨by decide, (bitonicSort_descriptors 16 0 8).1 (by decide)⟩

/-- C1 as stated fails at `arraySize = 65536`: the schedule of its 15 stages has 120 entries but
the descriptors emitted stop after the 92nd, where the capacity assertion fails. -/
theorem descriptors_cut_at_65536 :
    (bitonicSort 16 0 65536).emitted.map (fun r => (r.sortState.stage, r.sortState.pass)) ≠
      schedule (numStages 65536) := by
  intro h
  have h1 := congrArg List.length h
  rw [List.length_map, emitted_length, numStages_65536, schedule_length] at h1
  norm_num at h1

/-- C2.  When no assertion fires, the final value of `passNum`, which is also the number of
records emitted, is `numStages * (numStages + 1) / 2`; for `arraySize = 1024` there are `9`
stages and `45` passes, and no assertion fires. -/
theorem bitonicSort_total_passes (sz co arraySize : Nat) :
    ((bitonicSort sz co arraySize).assertFailed = false →
      (bitonicSort sz co arraySize).passNum = numStages arraySize * (numStages arraySize + 1) / 2 ∧
      (bitonicSort sz co arraySize).emitted.length =
        numStages arraySize * (numStages arraySize + 1) / 2) ∧
    numStages 1024 = 9 ∧
    (bitonicSort sz co 1024).passNum = 45 ∧
    (bitonicSort sz co 1024).emitted.length = 45 ∧
    (bitonicSort sz co 1024).assertFailed = false := by
  have hgen : ∀ a, (bitonicSort sz co a).assertFailed = false →
      (bitonicSort sz co a).passNum = numStages a * (numStages a + 1) / 2 ∧
      (bitonicSort sz co a).emitted.length = numStages a * (numStages a + 1) / 2 := by
    intro a h
    have hlen := emitted_length sz co a
    rw [bitonicSort_spec] at h ⊢
    simp only [decide_eq_false_iff_not, not_lt] at h
    rw [bitonicSort_spec] at hlen
    rw [← schedule_length]
    constructor
    · simp only; omega
    · rw [hlen]; omega
  have h1024 : (bitonicSort sz co 1024).assertFailed = false := by
    have := assertFailed_iff sz co 1024
    cases hb : (bitonicSort sz co 1024).assertFailed
    · rfl
    · rw [hb] at this; simp at this
  have := hgen 1024 h1024
  rw [numStages_1024] at this
  exact ⟨hgen arraySize, numStages_1024, this.1, this.2, h1024⟩

theorem bitonicSort_total_passes_witness :
    (bitonicSort 16 0 1024).assertFailed = false ∧
    (bitonicSort 16 0 1024).passNum = numStages 1024 * (numStages 1024 + 1) / 2 ∧
    (bitonicSort 16 0 1024).emitted.length = numStages 1024 * (numStages 1024 + 1) / 2 :=
  ⟨(bitonicSort_total_passes 16 0 1024).2.2.2.2,
    (bitonicSort_total_passes 16 0 1024).1 (bitonicSort_total_passes 16 0 1024).2.2.2.2⟩

/-- C4.  For `arraySize = 2^k` with `k ≥ 2`, the loop counts
`ceil(log2(arraySize)) - 1 = k - 1` stages. -/
theorem numStages_power_of_two (k : Nat) (hk : 2 ≤ k) :
    numStages (2 ^ k) = Nat.clog 2 (2 ^ k) - 1 ∧ numStages (2 ^ k) = k - 1 := by
  rw [Nat.clog_pow 2 k (by norm_num)]
  exact ⟨numStages_pow_two k hk, numStages_pow_two k hk⟩

theorem numStages_power_of_two_witness :
    2 ≤ 10 ∧ numStages (2 ^ 10) = Nat.clog 2 (2 ^ 10) - 1 ∧ numStages (2 ^ 10) = 10 - 1 :=
  ⟨by decide, numStages_power_of_two 10 (by decide)⟩

/-- C6.  The capacity assertion of `bitonicSort` fails exactly when the session's
`numStages * (numStages + 1) / 2` passes exceed `kNumSortStateBuffers = 91`, which is exactly
when `arraySize ≥ 24576`; for a smaller `arraySize` no assertion fails and every pass of the
schedule is emitted. -/
theorem bitonicSort_capacity_assertion (sz co arraySize : Nat) :
    ((bitonicSort sz co arraySize).assertFailed = true ↔
      kNumSortStateBuffers < numStages arraySize * (numStages arraySize + 1) / 2) ∧
    ((bitonicSort sz co arraySize).assertFailed = true ↔ 24576 ≤ arraySize) ∧
    (arraySize < 24576 →
      (bitonicSort sz co arraySize).assertFailed = false ∧
      (bitonicSort sz co arraySize).emitted.length =
        numStages arraySize * (numStages arraySize + 1) / 2 ∧
      (bitonicSort sz co arraySize).emitted.map (fun r => (r.sortState.stage, r.sortState.pass)) =
        schedule (numStages arraySize)) := by
  refine ⟨?_, assertFailed_iff sz co arraySize, ?_⟩
  · rw [assertFailed_iff, ← capacity_exceeded_iff, schedule_length]
    rfl
  · intro h
    have hcap := capacity_exceeded_iff arraySize
    have hf : (bitonicSort sz co arraySize).assertFailed = false := by
      have := assertFailed_iff sz co arraySize
      cases hb : (bitonicSort sz co arraySize).assertFailed
      · rfl
      · rw [hb] at this; simp at this; omega
    refine ⟨hf, ?_, ?_⟩
    · rw [emitted_length, ← schedule_length]; omega
    · rw [emitted_stage_pass]
      apply List.take_of_length_le
      omega

theorem bitonicSort_capacity_assertion_witness :
    (1024 : Nat) < 24576 ∧
    (bitonicSort 16 0 1024).assertFailed = false ∧
    (bitonicSort 16 0 1024).emitted.length = numStages 1024 * (numStages 1024 + 1) / 2 ∧
    (bitonicSort 16 0 1024).emitted.map (fun r => (r.sortState.stage, r.sortState.pass)) =
      schedule (numStages 1024) :=
  ⟨by decide, (bitonicSort_capacity_assertion 16 0 1024).2.2 (by decide)⟩

/-- C8, as amended.  `numStages` is `0` for `arraySize ≤ 2` and `floor(log2(arraySize / 3)) + 1`
(integer division) for `arraySize ≥ 3`; it lies between `floor(log2(arraySize)) - 1` and
`floor(log2(arraySize))`. -/
theorem numStages_closed_form (arraySize : Nat) :
    (arraySize ≤ 2 → numStages arraySize = 0) ∧
    (3 ≤ arraySize →
      numStages arraySize = Nat.log 2 (arraySize / 3) + 1 ∧
      Nat.log 2 arraySize - 1 ≤ numStages arraySize ∧
      numStages arraySize ≤ Nat.log 2 arraySize) := by
  refine ⟨numStages_stop arraySize, fun h => ?_⟩
  have h0 : 0 < numStages arraySize := (lt_numStages_iff 0 arraySize).2 (by omega)
  obtain ⟨n, hn⟩ : ∃ n, numStages arraySize = n + 1 := ⟨numStages arraySize - 1, by omega⟩
  have hlo : 3 * 2 ^ n ≤ arraySize := (lt_numStages_iff n arraySize).1 (by omega)
  have hhi : arraySize < 3 * 2 ^ (n + 1) := by
    by_contra hc
    have := (lt_numStages_iff (n + 1) arraySize).2 (by omega)
    omega
  refine ⟨numStages_eq_log arraySize h, ?_, ?_⟩
  · have : Nat.log 2 arraySize < n + 3 := by
      apply Nat.log_lt_of_lt_pow (by omega)
      have e : 2 ^ (n + 3) = 8 * 2 ^ n := by ring
      have e1 : 2 ^ (n + 1) = 2 * 2 ^ n := by ring
      omega
    omega
  · rw [hn]
    apply Nat.le_log_of_pow_le (by norm_num)
    have e1 : 2 ^ (n + 1) = 2 * 2 ^ n := by ring
    omega

theorem numStages_closed_form_witness :
    3 ≤ 1024 ∧ numStages 1024 = Nat.log 2 (1024 / 3) + 1 ∧
      Nat.log 2 1024 - 1 ≤ numStages 1024 ∧ numStages 1024 ≤ Nat.log 2 1024 :=
  ⟨by decide, (numStages_closed_form 1024).2 (by decide)⟩

/-- C8 as stated fails at `arraySize = 8`: the loop counts `2` stages, `floor(log2(8))` is `3`. -/
theorem numStages_ne_log_at_8 : 1 ≤ 8 ∧ numStages 8 ≠ Nat.log 2 8 := by
  refine ⟨by decide, ?_⟩
  have h : Nat.log 2 8 = 3 := Nat.log_pow (by norm_num : 1 < 2) 3
  rw [numStages_8, h]
  decide

/-- C10, on the code.  For every `arraySize ≥ 24576` (for instance `65536 = 256 * 256`) the run
writes a descriptor to slot `91`, which is `kNumSortStateBuffers`, one past the last slot of the
ring, and binds byte offset `sizeof(sortState_t) * 91`: the slots written are `0 .. 91`, and the
assertion fails only after that write and its dispatch. -/
theorem capacity_check_after_write (sz co arraySize : Nat) (h : 24576 ≤ arraySize) :
    (bitonicSort sz co arraySize).assertFailed = true ∧
    (bitonicSort sz co arraySize).emitted.map (fun r => r.slot) = List.range 92 ∧
    ∃ r ∈ (bitonicSort sz co arraySize).emitted,
      r.slot = kNumSortStateBuffers ∧ r.sortState.passNum = kNumSortStateBuffers ∧
      r.bindOffset = sz * kNumSortStateBuffers := by
  have hlen : 91 < (schedule (numStages arraySize)).length := (capacity_exceeded_iff arraySize).2 h
  have hslots : (bitonicSort sz co arraySize).emitted.map (fun r => r.slot) = List.range 92 := by
    rw [bitonicSort_spec, recordsFrom_slot, List.length_take, List.range_eq_range',
      Nat.min_eq_left (by omega)]
  refine ⟨(assertFailed_iff sz co arraySize).2 h, hslots, ?_⟩
  have hmem : 91 ∈ (bitonicSort sz co arraySize).emitted.map (fun r => r.slot) := by
    rw [hslots]; simp
  obtain ⟨r, hr, hslot⟩ := List.mem_map.1 hmem
  have hd : r ∈ recordsFrom sz co arraySize 0 ((schedule (numStages arraySize)).take 92) := by
    rw [bitonicSort_spec] at hr; exact hr
  obtain ⟨_, _, hb, hs⟩ := recordsFrom_dispatch sz co arraySize _ 0 r hd
  exact ⟨r, hr, hslot, by rw [← hs]; exact hslot, by rw [hb, hslot]; rfl⟩

theorem capacity_check_after_write_witness :
    24576 ≤ 65536 ∧
    (bitonicSort 16 0 65536).assertFailed = true ∧
    (bitonicSort 16 0 65536).emitted.map (fun r => r.slot) = List.range 92 ∧
    ∃ r ∈ (bitonicSort 16 0 65536).emitted,
      r.slot = kNumSortStateBuffers ∧ r.sortState.passNum = kNumSortStateBuffers ∧
      r.bindOffset = 16 * kNumSortStateBuffers :=
  ⟨by decide, capacity_check_after_write 16 0 65536 (by decide)⟩

/-! ## Dispatch sizes -/

theorem bitonicSort_4 (sz co : Nat) :
    bitonicSort sz co 4 =
      { passNum := 1, emitted := recordsFrom sz co 4 0 [(0, 0)], assertFailed := false } := by
  rw [bitonicSort_spec, numStages_4]
  rfl

theorem bitonicSort_6 (sz co : Nat) :
    bitonicSort sz co 6 =
      { passNum := 3
        emitted := recordsFrom sz co 6 0 [(0, 0), (1, 1), (1, 0)]
        assertFailed := false } := by
  rw [bitonicSort_spec, numStages_6]
  rfl

/-- The dispatch arguments of every emitted pass, for any `arraySize`. -/
theorem emitted_dispatch (sz co arraySize : Nat) (r : PassRecord)
    (hr : r ∈ (bitonicSort sz co arraySize).emitted) :
    r.threadGroup = 32 ∧
    r.globalWorkSize = (if r.sortState.pass ≠ 0 then arraySize / 8 else 2 * (arraySize / 8)) := by
  rw [bitonicSort_spec] at hr
  obtain ⟨h32, hg, _, _⟩ := recordsFrom_dispatch sz co arraySize _ 0 r hr
  exact ⟨h32, hg⟩

/-- C5, as amended.  For every `arraySize` and every pass `bitonicSort` emits, the thread-group
size is `32` and the global work size is `arraySize / 8` when `passOfStage > 0`; when `arraySize`
is a multiple of `8`, the global work size is `arraySize / 4` when `passOfStage = 0`. -/
theorem dispatch_sizes (sz co arraySize : Nat) (r : PassRecord)
    (hr : r ∈ (bitonicSort sz co arraySize).emitted) :
    r.threadGroup = 32 ∧
    (0 < r.sortState.pass → r.globalWorkSize = arraySize / 8) ∧
    (8 ∣ arraySize → r.sortState.pass = 0 → r.globalWorkSize = arraySize / 4) := by
  obtain ⟨h32, hg⟩ := emitted_dispatch sz co arraySize r hr
  refine ⟨h32, ?_, ?_⟩
  · intro hp
    rw [hg, if_pos (by omega)]
  · intro h8 hp
    rw [hg, if_neg (by omega)]
    omega

theorem dispatch_sizes_witness :
    recordAt 16 0 8 0 (0, 0) ∈ (bitonicSort 16 0 8).emitted ∧ 8 ∣ 8 ∧
    (recordAt 16 0 8 0 (0, 0)).sortState.pass = 0 ∧
    (recordAt 16 0 8 0 (0, 0)).globalWorkSize = 8 / 4 ∧
    recordAt 16 0 8 1 (1, 1) ∈ (bitonicSort 16 0 8).emitted ∧
    0 < (recordAt 16 0 8 1 (1, 1)).sortState.pass ∧
    (recordAt 16 0 8 1 (1, 1)).globalWorkSize = 8 / 8 :=
  have hmem : recordAt 16 0 8 0 (0, 0) ∈ (bitonicSort 16 0 8).emitted := by
    rw [bitonicSort_8]; simp [recordsFrom]
  have hmem1 : recordAt 16 0 8 1 (1, 1) ∈ (bitonicSort 16 0 8).emitted := by
    rw [bitonicSort_8]; simp [recordsFrom]
  ⟨hmem, by decide, rfl, (dispatch_sizes 16 0 8 _ hmem).2.2 (by decide) rfl,
    hmem1, by decide, (dispatch_sizes 16 0 8 _ hmem1).2.1 (by decide)⟩

/-- C5 as stated fails at `arraySize = 4`, a multiple of `4`: the one pass emitted has
`passOfStage = 0` and global work size `0`, not `4 / 4 = 1`. -/
theorem dispatch_size_at_4 :
    4 ∣ 4 ∧ ∃ r ∈ (bitonicSort 16 0 4).emitted,
      r.sortState.pass = 0 ∧ r.globalWorkSize = 0 ∧ r.globalWorkSize ≠ 4 / 4 := by
  refine ⟨by decide, recordAt 16 0 4 0 (0, 0), ?_, rfl, rfl, by decide⟩
  rw [bitonicSort_4]; simp [recordsFrom]

/-! ## `loadAssets` -/

theorem loadLoop_fold {V : Type} (randVec3 : Nat → V) (n : Nat) :
    ((List.range n).foldl (loadBody randVec3) { particles := [], indices := [] }).particles.length
        = n ∧
    ((List.range n).foldl (loadBody randVec3) { particles := [], indices := [] }).indices =
      (List.range ((n + 3) / 4)).map (fun j => quadAt (4 * j)) := by
  induction n with
  | zero => exact ⟨rfl, rfl⟩
  | succ n ih =>
    rw [List.range_succ, List.foldl_append, List.foldl_cons, List.foldl_nil]
    obtain ⟨ihp, ihi⟩ := ih
    by_cases h : n % 4 = 0
    · have e : (n + 1 + 3) / 4 = (n + 3) / 4 + 1 := by omega
      have e2 : 4 * ((n + 3) / 4) = n := by omega
      simp only [loadBody, h, if_true, List.length_append, List.length_singleton, ihp, ihi, e,
        List.range_succ, List.map_append, List.map_cons, List.map_nil, e2, and_self]
    · have e : (n + 1 + 3) / 4 = (n + 3) / 4 := by omega
      simp only [loadBody, h, if_false, List.length_append, List.length_singleton, ihp, ihi, e,
        and_self]

theorem loadLoop_particles_length {V : Type} (randVec3 : Nat → V) (d : Nat) :
    (loadLoop randVec3 d).particles.length = d * d :=
  (loadLoop_fold randVec3 (d * d)).1

theorem loadLoop_indices {V : Type} (randVec3 : Nat → V) (d : Nat) :
    (loadLoop randVec3 d).indices = (List.range ((d * d + 3) / 4)).map (fun j => quadAt (4 * j)) :=
  (loadLoop_fold randVec3 (d * d)).2

theorem loadLoop_indices_length {V : Type} (randVec3 : Nat → V) (d : Nat) :
    (loadLoop randVec3 d).indices.length = (d * d + 3) / 4 := by
  rw [loadLoop_indices]; simp

theorem toInt32_of_lt (u : Nat) (h : u < 2 ^ 31) : toInt32 u = (u : Int) := by
  have h1 : u % 2 ^ 32 = u := Nat.mod_eq_of_lt (by omega)
  simp only [toInt32, h1, h, if_true]

theorem quadAt_toList (j : Nat) (h : 4 * j + 3 < 2 ^ 31) :
    (quadAt (4 * j)).toList =
      [((4 * j : Nat) : Int), ((4 * j + 1 : Nat) : Int), ((4 * j + 2 : Nat) : Int),
        ((4 * j + 3 : Nat) : Int)] := by
  have h1 : (4 * j + 1) % 2 ^ 32 = 4 * j + 1 := Nat.mod_eq_of_lt (by omega)
  have h2 : (4 * j + 2) % 2 ^ 32 = 4 * j + 2 := Nat.mod_eq_of_lt (by omega)
  have h3 : (4 * j + 3) % 2 ^ 32 = 4 * j + 3 := Nat.mod_eq_of_lt (by omega)
  simp only [ivec4.toList, quadAt, h1, h2, h3]
  rw [toInt32_of_lt _ (by omega), toInt32_of_lt _ (by omega), toInt32_of_lt _ (by omega),
    toInt32_of_lt _ (by omega)]

theorem flat_quads (m : Nat) (h : 4 * m < 2 ^ 31) :
    ((List.range m).map (fun j => quadAt (4 * j))).flatMap ivec4.toList =
      (List.range (4 * m)).map (fun i : Nat => (i : Int)) := by
  induction m with
  | zero => rfl
  | succ m ih =>
    have e : 4 * (m + 1) = 4 * m + 1 + 1 + 1 + 1 := by ring
    rw [List.range_succ, List.map_append, List.flatMap_append, ih (by omega), e]
    simp only [List.range_succ, List.map_append, List.map_cons, List.map_nil, List.flatMap_cons,
      List.flatMap_nil, List.append_nil, List.append_assoc, List.singleton_append]
    rw [quadAt_toList m (by omega)]
    rfl

theorem roundF32_of_lt (n : Nat) (h : n < 2 ^ 24) : roundF32 n = n := by
  simp only [roundF32, h, if_true]

theorem roundF32_four_mul (m : Nat) : roundF32 (4 * m) = 4 * roundF32 m := by
  by_cases h4 : 4 * m < 2 ^ 24
  · rw [roundF32_of_lt _ h4, roundF32_of_lt _ (by omega)]
  · have hm0 : m ≠ 0 := by omega
    have hlog : Nat.log 2 (4 * m) = Nat.log 2 m + 2 := by
      have e : 4 * m = m * 2 * 2 := by ring
      rw [e, Nat.log_mul_base (by norm_num) (by omega), Nat.log_mul_base (by norm_num) hm0]
    by_cases hm : m < 2 ^ 24
    · rw [roundF32_of_lt m hm]
      have hlo : 22 ≤ Nat.log 2 m := by
        apply Nat.le_log_of_pow_le (by norm_num); omega
      have hhi : Nat.log 2 m < 24 := Nat.log_lt_of_lt_pow hm0 hm
      have he : Nat.log 2 m = 22 ∨ Nat.log 2 m = 23 := by omega
      simp only [roundF32, h4, if_false, hlog]
      rcases he with he | he
      · rw [he]; norm_num; split_ifs <;> omega
      · rw [he]; norm_num; omega
    · have hlo : 24 ≤ Nat.log 2 m := by
        apply Nat.le_log_of_pow_le (by norm_num); omega
      obtain ⟨e, he⟩ : ∃ e, Nat.log 2 m = e + 24 := ⟨Nat.log 2 m - 24, by omega⟩
      simp only [roundF32, h4, hm, if_false, hlog, he]
      have e1 : e + 24 + 2 - 23 = (e + 1) + 2 := by omega
      have e2 : e + 24 - 23 = e + 1 := by omega
      have e3 : e + 1 + 2 - 1 = (e + 1 - 1) + 2 := by omega
      rw [e1, e2, e3]
      have p1 : 2 ^ (e + 1 + 2) = 4 * 2 ^ (e + 1) := by ring
      have p2 : 2 ^ (e + 1 - 1 + 2) = 4 * 2 ^ (e + 1 - 1) := by ring
      have hpos : 0 < 2 ^ (e + 1) := by positivity
      rw [p1, p2, Nat.mul_div_mul_left _ _ (by norm_num : 0 < 4), Nat.mul_mod_mul_left]
      have c1 : (4 * (m % 2 ^ (e + 1)) < 4 * 2 ^ (e + 1 - 1)) ↔
          (m % 2 ^ (e + 1) < 2 ^ (e + 1 - 1)) := by omega
      have c2 : (4 * 2 ^ (e + 1 - 1) < 4 * (m % 2 ^ (e + 1))) ↔
          (2 ^ (e + 1 - 1) < m % 2 ^ (e + 1)) := by omega
      simp only [c1, c2]
      ring

theorem indicesAssertion_iff {V : Type} (randVec3 : Nat → V) (d : Nat) :
    indicesAssertion (loadLoop randVec3 d) = true ↔
      4 * roundF32 ((d * d + 3) / 4) = roundF32 (d * d) := by
  rw [indicesAssertion, decide_eq_true_iff, loadLoop_indices_length, loadLoop_particles_length,
    eq_div_iff (by norm_num : (4 : ℚ) ≠ 0), mul_comm]
  norm_cast

/-- C9.  For a particle count `N = kParticleDimension * kParticleDimension` (an `int` product,
so below `2^31`) that is a multiple of `4`, `loadAssets` passes its assertion, the index vector
has `N / 4` entries for `N` particles, and flattened in order it is `0, 1, ..., N-1`, hence a
permutation of `[0, N)`. -/
theorem loadAssets_identity_indices {V : Type} (randVec3 : Nat → V) (kParticleDimension : Nat)
    (h4 : 4 ∣ kParticleDimension * kParticleDimension)
    (hN : kParticleDimension * kParticleDimension < 2 ^ 31) :
    ∃ a, loadAssets randVec3 kParticleDimension = some a ∧
      a.particles.length = kParticleDimension * kParticleDimension ∧
      a.indices.length = kParticleDimension * kParticleDimension / 4 ∧
      flatIndices a =
        (List.range (kParticleDimension * kParticleDimension)).map (fun i : Nat => (i : Int)) ∧
      (flatIndices a).Perm
        ((List.range (kParticleDimension * kParticleDimension)).map (fun i : Nat => (i : Int))) := by
  obtain ⟨m, hm⟩ := h4
  have hdiv : (kParticleDimension * kParticleDimension + 3) / 4 = m := by omega
  have hassert : indicesAssertion (loadLoop randVec3 kParticleDimension) = true := by
    rw [indicesAssertion_iff, hdiv, hm, roundF32_four_mul]
  have hflat : flatIndices (loadLoop randVec3 kParticleDimension) =
      (List.range (kParticleDimension * kParticleDimension)).map (fun i : Nat => (i : Int)) := by
    rw [flatIndices, loadLoop_indices, hdiv, hm]
    exact flat_quads m (by omega)
  refine ⟨loadLoop randVec3 kParticleDimension, ?_, loadLoop_particles_length _ _, ?_, hflat, ?_⟩
  · simp only [loadAssets, hassert, if_true]
  · rw [loadLoop_indices_length]; omega
  · rw [hflat]

theorem loadAssets_identity_indices_witness :
    4 ∣ 64 * 64 ∧ 64 * 64 < 2 ^ 31 ∧
    ∃ a, loadAssets (fun n : Nat => n) 64 = some a ∧
      a.particles.length = 64 * 64 ∧
      a.indices.length = 64 * 64 / 4 ∧
      flatIndices a = (List.range (64 * 64)).map (fun i : Nat => (i : Int)) ∧
      (flatIndices a).Perm ((List.range (64 * 64)).map (fun i : Nat => (i : Int))) :=
  ⟨by decide, by decide,
    loadAssets_identity_indices (fun n : Nat => n) 64 (by decide) (by decide)⟩

/-- C7, as amended.  `bitonicSort` does not check that `arraySize` is a multiple of `4`: for
every `arraySize` below `24576` that is not a multiple of `4` no assertion fails and the whole
session is emitted.  The multiple-of-4 precondition is asserted in `loadAssets`: for every
particle count `kParticleDimension * kParticleDimension` below `2^24` that is not a multiple of
`4`, the assertion on `indices.size()` fails. -/
theorem multiple_of_four_check {V : Type} (sz co : Nat) :
    (∀ arraySize, ¬ 4 ∣ arraySize → arraySize < 24576 →
      (bitonicSort sz co arraySize).assertFailed = false ∧
      (bitonicSort sz co arraySize).emitted.length =
        numStages arraySize * (numStages arraySize + 1) / 2) ∧
    (∀ (randVec3 : Nat → V) (kParticleDimension : Nat),
      ¬ 4 ∣ kParticleDimension * kParticleDimension →
      kParticleDimension * kParticleDimension < 2 ^ 24 →
      loadAssets randVec3 kParticleDimension = none) := by
  constructor
  · intro a _ h
    have hcap := capacity_exceeded_iff a
    constructor
    · have := assertFailed_iff sz co a
      cases hb : (bitonicSort sz co a).assertFailed
      · rfl
      · rw [hb] at this; simp at this; omega
    · rw [emitted_length, ← schedule_length]; omega
  · intro randVec3 d h4 hN
    have hassert : indicesAssertion (loadLoop randVec3 d) = false := by
      cases hb : indicesAssertion (loadLoop randVec3 d)
      · rfl
      · rw [indicesAssertion_iff, roundF32_of_lt _ hN, roundF32_of_lt _ (by omega)] at hb
        omega
    simp only [loadAssets, hassert, Bool.false_eq_true, if_false]

theorem multiple_of_four_check_witness :
    (¬ 4 ∣ 6 ∧ 6 < 24576 ∧
      (bitonicSort 16 0 6).assertFailed = false ∧
      (bitonicSort 16 0 6).emitted.length = numStages 6 * (numStages 6 + 1) / 2) ∧
    (¬ 4 ∣ 3 * 3 ∧ 3 * 3 < 2 ^ 24 ∧ loadAssets (fun _ : Nat => ()) 3 = none) :=
  ⟨⟨by decide, by decide,
      (multiple_of_four_check 16 0 (V := Unit)).1 6 (by decide) (by decide)⟩,
    ⟨by decide, by decide,
      (multiple_of_four_check 16 0).2 (fun _ => ()) 3 (by decide) (by decide)⟩⟩

/-- C7 as stated fails at `arraySize = 6`, not a multiple of `4`: `bitonicSort` emits its three
passes and no assertion fails. -/
theorem bitonicSort_completes_at_6 :
    ¬ 4 ∣ 6 ∧ (bitonicSort 16 0 6).assertFailed = false ∧ (bitonicSort 16 0 6).passNum = 3 ∧
    (bitonicSort 16 0 6).emitted.map (fun r => (r.sortState.stage, r.sortState.pass)) =
      [(0, 0), (1, 1), (1, 0)] := by
  rw [bitonicSort_6]
  exact ⟨by decide, rfl, rfl, rfl⟩

/-! ## Bitonic merging on marks -/

theorem halfCleaner_and (h a b : Nat) :
    ∃ a' b', ∀ i, i < h →
      (((a ≤ i ∧ i < b) ∧ (a ≤ h + i ∧ h + i < b)) ↔ (a' ≤ i ∧ i < b')) :=
  ⟨a, b - h, fun i hi => by omega⟩

theorem halfCleaner_or (h a b : Nat) :
    ∃ a' b', (∀ i, i < h →
      (((a ≤ i ∧ i < b) ∨ (a ≤ h + i ∧ h + i < b)) ↔ (a' ≤ i ∧ i < b'))) ∨
      (∀ i, i < h →
        (((a ≤ i ∧ i < b) ∨ (a ≤ h + i ∧ h + i < b)) ↔ ¬ (a' ≤ i ∧ i < b'))) := by
  by_cases h1 : b ≤ h
  · exact ⟨a, b, Or.inl (fun i hi => by omega)⟩
  · by_cases h2 : h ≤ a
    · exact ⟨a - h, b - h, Or.inl (fun i hi => by omega)⟩
    · by_cases h3 : a + h ≤ b
      · exact ⟨0, h, Or.inl (fun i hi => by omega)⟩
      · exact ⟨b - h, a, Or.inr (fun i hi => by omega)⟩

theorem halfCleaner_order (h a b i j : Nat) (hi : i < h) (hj : j < h)
    (hl : (a ≤ i ∧ i < b) ∧ (a ≤ h + i ∧ h + i < b)) :
    (a ≤ j ∧ j < b) ∨ (a ≤ h + j ∧ h + j < b) := by omega

theorem intervalForm_and (h : Nat) (F : Nat → Prop) (hF : IntervalForm (2 * h) F) :
    IntervalForm h (fun i => F i ∧ F (h + i)) := by
  obtain ⟨a, b, hF | hF⟩ := hF
  · obtain ⟨a', b', hc⟩ := halfCleaner_and h a b
    refine ⟨a', b', Or.inl (fun i hi => ?_)⟩
    simp only
    rw [hF i (by omega), hF (h + i) (by omega)]
    exact hc i hi
  · obtain ⟨a', b', hc | hc⟩ := halfCleaner_or h a b
    · refine ⟨a', b', Or.inr (fun i hi => ?_)⟩
      simp only
      rw [hF i (by omega), hF (h + i) (by omega), ← hc i hi]
      tauto
    · refine ⟨a', b', Or.inl (fun i hi => ?_)⟩
      simp only
      rw [hF i (by omega), hF (h + i) (by omega)]
      have := hc i hi
      tauto

theorem intervalForm_or (h : Nat) (F : Nat → Prop) (hF : IntervalForm (2 * h) F) :
    IntervalForm h (fun i => F i ∨ F (h + i)) := by
  obtain ⟨a, b, hF | hF⟩ := hF
  · obtain ⟨a', b', hc | hc⟩ := halfCleaner_or h a b
    · refine ⟨a', b', Or.inl (fun i hi => ?_)⟩
      simp only
      rw [hF i (by omega), hF (h + i) (by omega)]
      exact hc i hi
    · refine ⟨a', b', Or.inr (fun i hi => ?_)⟩
      simp only
      rw [hF i (by omega), hF (h + i) (by omega)]
      exact hc i hi
  · obtain ⟨a', b', hc⟩ := halfCleaner_and h a b
    refine ⟨a', b', Or.inr (fun i hi => ?_)⟩
    simp only
    rw [hF i (by omega), hF (h + i) (by omega), ← hc i hi]
    tauto

theorem intervalForm_order (h : Nat) (F : Nat → Prop) (hF : IntervalForm (2 * h) F)
    (i j : Nat) (hi : i < h) (hj : j < h) (hl : F i ∧ F (h + i)) : F j ∨ F (h + j) := by
  obtain ⟨a, b, hF | hF⟩ := hF
  · rw [hF i (by omega), hF (h + i) (by omega)] at hl
    rw [hF j (by omega), hF (h + j) (by omega)]
    exact halfCleaner_order h a b i j hi hj hl
  · rw [hF i (by omega), hF (h + i) (by omega)] at hl
    rw [hF j (by omega), hF (h + j) (by omega)]
    by_contra hc
    have hc' : (a ≤ j ∧ j < b) ∧ (a ≤ h + j ∧ h + j < b) := by tauto
    have := halfCleaner_order h a b j i hj hi hc'
    tauto

theorem threshold_of_ascending (n : Nat) (F : Nat → Prop)
    (hF : ∀ i j, i ≤ j → j < n → F i → F j) :
    ∃ a, a ≤ n ∧ ∀ i, i < n → (F i ↔ a ≤ i) := by
  induction n with
  | zero => exact ⟨0, le_refl _, fun i hi => by omega⟩
  | succ n ih =>
    obtain ⟨a, ha, hIH⟩ := ih (fun i j hij hj => hF i j hij (by omega))
    by_cases hn : F n
    · refine ⟨a, by omega, fun i hi => ?_⟩
      by_cases hin : i < n
      · exact hIH i hin
      · have : i = n := by omega
        subst this
        exact ⟨fun _ => ha, fun _ => hn⟩
    · refine ⟨n + 1, le_refl _, fun i hi => ?_⟩
      constructor
      · intro hFi
        exact absurd (hF i n (by omega) (by omega) hFi) hn
      · intro h1; omega

theorem threshold_of_descending (n : Nat) (F : Nat → Prop)
    (hF : ∀ i j, i ≤ j → j < n → F j → F i) :
    ∃ b, b ≤ n ∧ ∀ i, i < n → (F i ↔ i < b) := by
  induction n with
  | zero => exact ⟨0, le_refl _, fun i hi => by omega⟩
  | succ n ih =>
    obtain ⟨b, hb, hIH⟩ := ih (fun i j hij hj => hF i j hij (by omega))
    by_cases hn : F n
    · refine ⟨n + 1, le_refl _, fun i hi => ?_⟩
      constructor
      · intro _; exact hi
      · intro _; exact hF i n (by omega) (by omega) hn
    · refine ⟨b, by omega, fun i hi => ?_⟩
      by_cases hin : i < n
      · exact hIH i hin
      · have : i = n := by omega
        subst this
        constructor
        · intro h1; exact absurd h1 hn
        · intro h1; omega


theorem div_of_coords (B q i : Nat) (hi : i < B) : (q * B + i) / B = q := by
  have hB : 0 < B := by omega
  rw [Nat.add_comm, Nat.add_mul_div_right _ _ hB, Nat.div_eq_of_lt hi, Nat.zero_add]

theorem mod_of_coords (B q i : Nat) (hi : i < B) : (q * B + i) % B = i := by
  rw [Nat.add_comm, Nat.add_mul_mod_self_right, Nat.mod_eq_of_lt hi]

theorem coords_lo (h R P i : Nat) (hi : i < h) :
    (P * (2 * h) + i) / h = 2 * P ∧ (P * (2 * h) + i) / (2 * h * R) = P / R ∧
    pairPartner h (P * (2 * h) + i) = P * (2 * h) + (h + i) := by
  have e : P * (2 * h) + i = (2 * P) * h + i := by ring
  have h1 : (P * (2 * h) + i) / h = 2 * P := by rw [e]; exact div_of_coords h (2 * P) i hi
  refine ⟨h1, ?_, ?_⟩
  · rw [← Nat.div_div_eq_div_mul, div_of_coords (2 * h) P i (by omega)]
  · rw [pairPartner, h1]
    simp
    ring

theorem coords_hi (h R P i : Nat) (hi : i < h) :
    (P * (2 * h) + (h + i)) / h = 2 * P + 1 ∧
    (P * (2 * h) + (h + i)) / (2 * h * R) = P / R ∧
    pairPartner h (P * (2 * h) + (h + i)) = P * (2 * h) + i := by
  have e : P * (2 * h) + (h + i) = (2 * P + 1) * h + i := by ring
  have h1 : (P * (2 * h) + (h + i)) / h = 2 * P + 1 := by
    rw [e]; exact div_of_coords h (2 * P + 1) i hi
  refine ⟨h1, ?_, ?_⟩
  · rw [← Nat.div_div_eq_div_mul, div_of_coords (2 * h) P (h + i) (by omega)]
  · rw [pairPartner, h1]
    have : ¬ ((2 * P + 1) % 2 = 0) := by omega
    rw [if_neg this]
    omega

/-- Every position is the low or the high member of a pair, in coordinates. -/
theorem coords_cases (h t : Nat) :
    (t = (t / (2 * h)) * (2 * h) + t % h ∧ (t / h) % 2 = 0) ∨
    (t = (t / (2 * h)) * (2 * h) + (h + t % h) ∧ (t / h) % 2 = 1) := by
  have e1 : h * (t / h) + t % h = t := Nat.div_add_mod t h
  have e2 : t / (2 * h) = t / h / 2 := by rw [Nat.div_div_eq_div_mul, Nat.mul_comm]
  have e3 : 2 * (t / h / 2) + (t / h) % 2 = t / h := Nat.div_add_mod (t / h) 2
  rcases Nat.mod_two_eq_zero_or_one (t / h) with hc | hc
  · left
    refine ⟨?_, hc⟩
    rw [e2]
    have e4 : t / h = 2 * (t / h / 2) := by omega
    calc t = h * (t / h) + t % h := e1.symm
      _ = h * (2 * (t / h / 2)) + t % h := by rw [← e4]
      _ = t / h / 2 * (2 * h) + t % h := by ring
  · right
    refine ⟨?_, hc⟩
    rw [e2]
    have e4 : t / h = 2 * (t / h / 2) + 1 := by omega
    calc t = h * (t / h) + t % h := e1.symm
      _ = h * (2 * (t / h / 2) + 1) + t % h := by rw [← e4]
      _ = t / h / 2 * (2 * h) + (h + t % h) := by ring

theorem layer_lo {h R B : Nat} {G G' : Nat → Prop} (hB : B = 2 * h * R)
    (hl : ExchangeLayer h B G G') (P i : Nat) (hi : i < h) :
    G' (P * (2 * h) + i) ↔
      (if (P / R) % 2 = 0 then G (P * (2 * h) + i) ∧ G (P * (2 * h) + (h + i))
       else G (P * (2 * h) + i) ∨ G (P * (2 * h) + (h + i))) := by
  obtain ⟨c1, c2, c3⟩ := coords_lo h R P i hi
  rw [hl (P * (2 * h) + i), hB, c1, c2, c3]
  have : (2 * P) % 2 = 0 := by omega
  simp [this]

theorem layer_hi {h R B : Nat} {G G' : Nat → Prop} (hB : B = 2 * h * R)
    (hl : ExchangeLayer h B G G') (P i : Nat) (hi : i < h) :
    G' (P * (2 * h) + (h + i)) ↔
      (if (P / R) % 2 = 0 then G (P * (2 * h) + i) ∨ G (P * (2 * h) + (h + i))
       else G (P * (2 * h) + i) ∧ G (P * (2 * h) + (h + i))) := by
  obtain ⟨c1, c2, c3⟩ := coords_hi h R P i hi
  rw [hl (P * (2 * h) + (h + i)), hB, c1, c2, c3]
  have : ¬ ((2 * P + 1) % 2 = 0) := by omega
  by_cases hu : (P / R) % 2 = 0
  · simp [this, hu]; tauto
  · simp [this, hu]; tauto


theorem layer_bitonic {h R B : Nat} {G G' : Nat → Prop} (hB : B = 2 * h * R)
    (hb : BitonicBlocks (2 * h) G) (hl : ExchangeLayer h B G G') : BitonicBlocks h G' := by
  intro v
  have e2 : 2 * (v / 2) + v % 2 = v := Nat.div_add_mod v 2
  have hP := hb (v / 2)
  have hand := intervalForm_and h _ hP
  have hor := intervalForm_or h _ hP
  have transfer : ∀ (F F' : Nat → Prop), IntervalForm h F → (∀ i, i < h → (F' i ↔ F i)) →
      IntervalForm h F' := by
    intro F F' ⟨a, b, hF⟩ hFF
    refine ⟨a, b, ?_⟩
    rcases hF with hF | hF
    · exact Or.inl (fun i hi => (hFF i hi).trans (hF i hi))
    · exact Or.inr (fun i hi => (hFF i hi).trans (hF i hi))
  rcases Nat.mod_two_eq_zero_or_one v with hc | hc
  · have ev : ∀ i, v * h + i = (v / 2) * (2 * h) + i := by
      intro i
      have : v = 2 * (v / 2) := by omega
      calc v * h + i = (2 * (v / 2)) * h + i := by rw [← this]
        _ = (v / 2) * (2 * h) + i := by ring
    by_cases hu : (v / 2 / R) % 2 = 0
    · refine transfer _ _ hand (fun i hi => ?_)
      beta_reduce
      rw [ev i, layer_lo hB hl (v / 2) i hi, if_pos hu]
    · refine transfer _ _ hor (fun i hi => ?_)
      beta_reduce
      rw [ev i, layer_lo hB hl (v / 2) i hi, if_neg hu]
  · have ev : ∀ i, v * h + i = (v / 2) * (2 * h) + (h + i) := by
      intro i
      have : v = 2 * (v / 2) + 1 := by omega
      calc v * h + i = (2 * (v / 2) + 1) * h + i := by rw [← this]
        _ = (v / 2) * (2 * h) + (h + i) := by ring
    by_cases hu : (v / 2 / R) % 2 = 0
    · refine transfer _ _ hor (fun i hi => ?_)
      beta_reduce
      rw [ev i, layer_hi hB hl (v / 2) i hi, if_pos hu]
    · refine transfer _ _ hand (fun i hi => ?_)
      beta_reduce
      rw [ev i, layer_hi hB hl (v / 2) i hi, if_neg hu]

theorem coords_exists (h t : Nat) (hh : 0 < h) :
    ∃ P i, i < h ∧ t / (2 * h) = P ∧
      ((t = P * (2 * h) + i ∧ (t / h) % 2 = 0) ∨ (t = P * (2 * h) + (h + i) ∧ (t / h) % 2 = 1)) :=
  ⟨t / (2 * h), t % h, Nat.mod_lt t hh, rfl, coords_cases h t⟩

/-- After the layer, an entry is true only if one of the two entries of its pair was, and it is
true if both were. -/
theorem layer_bounds {h R B : Nat} {G G' : Nat → Prop} (hh : 0 < h)
    (hB : B = 2 * h * R) (hl : ExchangeLayer h B G G') (t : Nat) :
    ∃ u w, u / (2 * h) = t / (2 * h) ∧ w / (2 * h) = t / (2 * h) ∧
      (G' t → G u ∨ G w) ∧ (G u ∧ G w → G' t) := by
  obtain ⟨P, i, hi, hP, hc⟩ := coords_exists h t hh
  refine ⟨P * (2 * h) + i, P * (2 * h) + (h + i), ?_, ?_, ?_⟩
  · rw [hP]; exact div_of_coords (2 * h) _ _ (by omega)
  · rw [hP]; exact div_of_coords (2 * h) _ _ (by omega)
  · rcases hc with ⟨e, _⟩ | ⟨e, _⟩
    · have := layer_lo hB hl P i hi
      rw [e, this]
      split_ifs <;> tauto
    · have := layer_hi hB hl P i hi
      rw [e, this]
      split_ifs <;> tauto

theorem layer_ordered {h R B : Nat} {G G' : Nat → Prop} (hh : 0 < h)
    (hB : B = 2 * h * R)
    (hb : BitonicBlocks (2 * h) G) (ho : OrderedBlocks (2 * h) B G)
    (hl : ExchangeLayer h B G G') : OrderedBlocks h B G' := by
  intro x y hxy hlt
  have dB : ∀ t, t / B = t / (2 * h) / R := by
    intro t; rw [hB, Nat.div_div_eq_div_mul]
  have d2 : ∀ t, t / (2 * h) = t / h / 2 := by
    intro t; rw [Nat.div_div_eq_div_mul, Nat.mul_comm]
  by_cases hpar : x / (2 * h) = y / (2 * h)
  · -- same parent: x is in its low half, y in its high half
    have hxv : (x / h) % 2 = 0 := by have := d2 x; have := d2 y; omega
    have hyv : (y / h) % 2 = 1 := by have := d2 x; have := d2 y; omega
    obtain ⟨P, i, hi, hPx, hcx⟩ := coords_exists h x hh
    obtain ⟨P', j, hj, hPy, hcy⟩ := coords_exists h y hh
    have hPP : P' = P := by rw [← hPx, ← hPy, hpar]
    subst hPP
    have ex : x = P' * (2 * h) + i := by
      rcases hcx with ⟨e, _⟩ | ⟨_, e⟩
      · exact e
      · omega
    have ey : y = P' * (2 * h) + (h + j) := by
      rcases hcy with ⟨_, e⟩ | ⟨e, _⟩
      · omega
      · exact e
    have lx := layer_lo hB hl P' i hi
    have ly := layer_hi hB hl P' j hj
    have hP := hb P'
    rw [dB x, hPx, ex, ey]
    by_cases hu : (P' / R) % 2 = 0
    · rw [if_pos hu] at lx ly ⊢
      intro hx
      rw [lx] at hx
      rw [ly]
      exact intervalForm_order h _ hP i j hi hj hx
    · rw [if_neg hu] at lx ly ⊢
      intro hy
      rw [ly] at hy
      rw [lx]
      exact intervalForm_order h _ hP j i hj hi hy
  · -- different parents: the order of the parents carries over
    have hlt2 : x / (2 * h) < y / (2 * h) := by have := d2 x; have := d2 y; omega
    obtain ⟨ux, wx, hux, hwx, hx1, hx2⟩ := layer_bounds hh hB hl x
    obtain ⟨uy, wy, huy, hwy, hy1, hy2⟩ := layer_bounds hh hB hl y
    have key : ∀ p q, p / (2 * h) = x / (2 * h) → q / (2 * h) = y / (2 * h) →
        (if (x / B) % 2 = 0 then (G p → G q) else (G q → G p)) := by
      intro p q hp hq
      have := ho p q (by rw [dB p, dB q, hp, hq, ← dB x, ← dB y, hxy]) (by rw [hp, hq]; exact hlt2)
      rw [dB p, hp, ← dB x] at this
      exact this
    have k1 := key ux uy hux huy
    have k2 := key ux wy hux hwy
    have k3 := key wx uy hwx huy
    have k4 := key wx wy hwx hwy
    by_cases hu : (x / B) % 2 = 0
    · rw [if_pos hu] at k1 k2 k3 k4 ⊢
      intro hx
      apply hy2
      rcases hx1 hx with hg | hg
      · exact ⟨k1 hg, k2 hg⟩
      · exact ⟨k3 hg, k4 hg⟩
    · rw [if_neg hu] at k1 k2 k3 k4 ⊢
      intro hy
      apply hx2
      rcases hy1 hy with hg | hg
      · exact ⟨k1 hg, k3 hg⟩
      · exact ⟨k2 hg, k4 hg⟩

theorem sortedBlocks_one (G : Nat → Prop) : SortedBlocks 1 G := by
  intro x y hxy _
  have : x = y := by simpa using hxy
  subst this
  split_ifs <;> exact id

theorem sortedBlocks_of_ordered (B : Nat) (G : Nat → Prop) (ho : OrderedBlocks 1 B G) :
    SortedBlocks B G := by
  intro x y hxy hle
  rcases Nat.eq_or_lt_of_le hle with he | hlt
  · subst he
    split_ifs <;> exact id
  · exact ho x y hxy (by simpa using hlt)

theorem orderedBlocks_self (B : Nat) (G : Nat → Prop) : OrderedBlocks B B G := by
  intro x y hxy hlt
  omega

theorem bitonic_of_sorted (B : Nat) (G : Nat → Prop) (hs : SortedBlocks B G) :
    BitonicBlocks (2 * B) G := by
  intro v
  have c1 : ∀ i, i < B → (v * (2 * B) + i) / B = 2 * v := by
    intro i hi
    have e : v * (2 * B) + i = (2 * v) * B + i := by ring
    rw [e]; exact div_of_coords B (2 * v) i hi
  have c2 : ∀ i, i < B → (v * (2 * B) + (B + i)) / B = 2 * v + 1 := by
    intro i hi
    have e : v * (2 * B) + (B + i) = (2 * v + 1) * B + i := by ring
    rw [e]; exact div_of_coords B (2 * v + 1) i hi
  obtain ⟨a, ha, hA⟩ := threshold_of_ascending B (fun i => G (v * (2 * B) + i)) (by
    intro i j hij hj hGi
    have := hs (v * (2 * B) + i) (v * (2 * B) + j) (by rw [c1 i (by omega), c1 j hj]) (by omega)
    rw [c1 i (by omega), if_pos (by omega)] at this
    exact this hGi)
  obtain ⟨b, hb, hD⟩ := threshold_of_descending B (fun i => G (v * (2 * B) + (B + i))) (by
    intro i j hij hj hGj
    have := hs (v * (2 * B) + (B + i)) (v * (2 * B) + (B + j))
      (by rw [c2 i (by omega), c2 j hj]) (by omega)
    rw [c2 i (by omega), if_neg (by omega)] at this
    exact this hGj)
  refine ⟨a, B + b, Or.inl (fun i hi => ?_)⟩
  simp only at hA hD ⊢
  by_cases hiB : i < B
  · rw [hA i hiB]
    constructor
    · intro h1; exact ⟨h1, by omega⟩
    · intro h1; exact h1.1
  · have e : i = B + (i - B) := by omega
    rw [e, hD (i - B) (by omega)]
    constructor
    · intro h1; omega
    · intro h1; omega

theorem sorted_of_sortedBlocks (N : Nat) (G : Nat → Prop) (hs : SortedBlocks N G)
    (x y : Nat) (hxy : x ≤ y) (hy : y < N) (hx : G x) : G y := by
  have h0x : x / N = 0 := Nat.div_eq_of_lt (by omega)
  have h0y : y / N = 0 := Nat.div_eq_of_lt hy
  have := hs x y (by rw [h0x, h0y]) hxy
  rw [h0x] at this
  exact this hx


/-! ## The comparator kernel keeps the Index Array a permutation -/

theorem pairPartner_involutive (d t : Nat) : pairPartner d (pairPartner d t) = t := by
  rcases Nat.eq_zero_or_pos d with hd | hd
  · subst hd; simp [pairPartner]
  · by_cases hc : (t / d) % 2 = 0
    · have e : pairPartner d t = t + d := by simp [pairPartner, hc]
      have e2 : (t + d) / d = t / d + 1 := Nat.add_div_right t hd
      rw [e, pairPartner, e2, if_neg (by omega)]
      omega
    · have e : pairPartner d t = t - d := by simp [pairPartner, hc]
      have hge : d ≤ t := by
        by_contra hlt
        rw [Nat.div_eq_of_lt (by omega)] at hc
        exact hc rfl
      have e2 : (t - d) / d + 1 = t / d := by
        rw [← Nat.add_div_right (t - d) hd, Nat.sub_add_cancel hge]
      rw [e, pairPartner, if_pos (by omega)]
      omega

theorem exchangeSource_lt (key : Nat → Int) (direction pass g dirBlock d : Nat)
    (indexArray : List Nat) (t : Nat) (ht : t < indexArray.length) :
    exchangeSource key direction pass g dirBlock d indexArray t < indexArray.length := by
  unfold exchangeSource
  simp only
  split_ifs with h1 h2
  · exact h1.1
  · exact ht
  · exact ht

theorem exchangeSource_involutive (key : Nat → Int) (direction pass g dirBlock d : Nat)
    (indexArray : List Nat) (t : Nat) (ht : t < indexArray.length) :
    exchangeSource key direction pass g dirBlock d indexArray
      (exchangeSource key direction pass g dirBlock d indexArray t) = t := by
  have hinv := pairPartner_involutive d t
  by_cases h1 : pairPartner d t < indexArray.length ∧
      workItemOfQuad pass (min t (pairPartner d t) / 4) < g
  · by_cases h2 : pairOutOfOrder key
        (decide (((min t (pairPartner d t) / dirBlock) % 2 = 0) ↔ (direction = 1)))
        indexArray (min t (pairPartner d t)) (max t (pairPartner d t)) = true
    · have e : exchangeSource key direction pass g dirBlock d indexArray t = pairPartner d t := by
        simp only [exchangeSource, h1, h2, and_self, if_true]
      rw [e]
      simp only [exchangeSource, hinv, ht, min_comm (pairPartner d t) t,
        max_comm (pairPartner d t) t, h1, h2, and_self, if_true]
    · have e : exchangeSource key direction pass g dirBlock d indexArray t = t := by
        simp only [exchangeSource, h1, h2, and_self, if_true, Bool.false_eq_true, if_false]
      rw [e, e]
  · have e : exchangeSource key direction pass g dirBlock d indexArray t = t := by
      simp only [exchangeSource, h1, if_false]
    rw [e, e]

theorem exchangeStep_length (key : Nat → Int) (direction pass g dirBlock d : Nat)
    (indexArray : List Nat) :
    (exchangeStep key direction pass g dirBlock d indexArray).length = indexArray.length := by
  simp [exchangeStep]

theorem exchangeStep_getD (key : Nat → Int) (direction pass g dirBlock d : Nat)
    (indexArray : List Nat) (t : Nat) (ht : t < indexArray.length) :
    (exchangeStep key direction pass g dirBlock d indexArray).getD t 0 =
      indexArray.getD (exchangeSource key direction pass g dirBlock d indexArray t) 0 := by
  rw [List.getD_eq_getElem _ _ (by rw [exchangeStep_length]; exact ht)]
  simp [exchangeStep]

theorem exchangeStep_perm (key : Nat → Int) (direction pass g dirBlock d : Nat)
    (indexArray : List Nat) :
    (exchangeStep key direction pass g dirBlock d indexArray).Perm indexArray := by
  let σ : Fin indexArray.length → Fin indexArray.length := fun i =>
    ⟨exchangeSource key direction pass g dirBlock d indexArray i,
      exchangeSource_lt key direction pass g dirBlock d indexArray i i.2⟩
  have hσ : Function.Involutive σ := by
    intro i
    apply Fin.ext
    exact exchangeSource_involutive key direction pass g dirBlock d indexArray i i.2
  have h1 : exchangeStep key direction pass g dirBlock d indexArray =
      List.ofFn (indexArray.get ∘ hσ.toPerm) := by
    apply List.ext_getElem
    · simp [exchangeStep]
    · intro i hi1 hi2
      simp only [exchangeStep, List.getElem_map, List.getElem_range,
        List.getElem_ofFn, Function.comp_apply, Function.Involutive.coe_toPerm, List.get_eq_getElem]
      have hi : i < indexArray.length := by simpa [exchangeStep] using hi1
      exact List.getD_eq_getElem _ _ (exchangeSource_lt key direction pass g dirBlock d indexArray i hi)
  have h2 := Equiv.Perm.ofFn_comp_perm hσ.toPerm indexArray.get
  rw [List.ofFn_get] at h2
  rw [h1]
  exact h2

theorem kernelDispatch_perm (key : Nat → Int) (direction stage pass g : Nat)
    (indexArray : List Nat) :
    (kernelDispatch key direction stage pass g indexArray).Perm indexArray := by
  unfold kernelDispatch
  simp only
  split_ifs
  · exact exchangeStep_perm _ _ _ _ _ _ _
  · exact ((exchangeStep_perm _ _ _ _ _ _ _).trans (exchangeStep_perm _ _ _ _ _ _ _)).trans
      (exchangeStep_perm _ _ _ _ _ _ _)
  · exact (exchangeStep_perm _ _ _ _ _ _ _).trans (exchangeStep_perm _ _ _ _ _ _ _)

theorem runSession_perm (key : Nat → Int) (records : List PassRecord) :
    ∀ indexArray, (runSession key records indexArray).Perm indexArray := by
  induction records with
  | nil => intro indexArray; exact List.Perm.refl _
  | cons r rest ih =>
    intro indexArray
    exact (ih _).trans (kernelDispatch_perm key _ _ _ _ indexArray)


/-! ## One compare-exchange of the kernel on the marks -/

theorem lt_iff_of_coords (d m P j : Nat) (hj : j < 2 * d) :
    P * (2 * d) + j < m * (2 * d) ↔ P < m := by
  constructor
  · intro h
    by_contra hc
    have : m * (2 * d) ≤ P * (2 * d) := Nat.mul_le_mul_right _ (by omega)
    omega
  · intro h
    have : (P + 1) * (2 * d) ≤ m * (2 * d) := Nat.mul_le_mul_right _ (by omega)
    have e : (P + 1) * (2 * d) = P * (2 * d) + 2 * d := by ring
    omega

theorem keyAtLeast_exchange_lo (key : Nat → Int) (c : Int) (pass g dirBlock d : Nat)
    (idx : List Nat) (t : Nat) (up : Prop) [Decidable up]
    (hlo : (t / d) % 2 = 0) (hd : 0 < d) (ht : t + d < idx.length)
    (hact : workItemOfQuad pass (t / 4) < g)
    (hup : ((t / dirBlock) % 2 = 0) ↔ up) :
    keyAtLeast key c (exchangeStep key 1 pass g dirBlock d idx) t ↔
      (if up then keyAtLeast key c idx t ∧ keyAtLeast key c idx (t + d)
       else keyAtLeast key c idx t ∨ keyAtLeast key c idx (t + d)) := by
  have htl : t < idx.length := by omega
  have hp : pairPartner d t = t + d := by simp [pairPartner, hlo]
  have hmin : min t (t + d) = t := by omega
  have hmax : max t (t + d) = t + d := by omega
  simp only [keyAtLeast, exchangeStep_length, exchangeStep_getD _ _ _ _ _ _ _ _ htl,
    exchangeSource, hp, hmin, hmax, ht, hact, and_self, if_true, htl, true_and,
    pairOutOfOrder, hup]
  by_cases hu : up
  · simp only [hu, iff_true, decide_True, if_true, decide_eq_true_eq]
    split_ifs <;> omega
  · simp only [hu, iff_true, decide_False, if_false, decide_eq_true_eq, Bool.false_eq_true]
    split_ifs <;> omega

theorem keyAtLeast_exchange_hi (key : Nat → Int) (c : Int) (pass g dirBlock d : Nat)
    (idx : List Nat) (t : Nat) (up : Prop) [Decidable up]
    (hhi : (t / d) % 2 = 1) (hd : 0 < d) (hge : d ≤ t) (ht : t < idx.length)
    (hact : workItemOfQuad pass ((t - d) / 4) < g)
    (hup : (((t - d) / dirBlock) % 2 = 0) ↔ up) :
    keyAtLeast key c (exchangeStep key 1 pass g dirBlock d idx) t ↔
      (if up then keyAtLeast key c idx t ∨ keyAtLeast key c idx (t - d)
       else keyAtLeast key c idx t ∧ keyAtLeast key c idx (t - d)) := by
  have htl : t - d < idx.length := by omega
  have hp : pairPartner d t = t - d := by
    have : ¬ ((t / d) % 2 = 0) := by omega
    simp [pairPartner, this]
  have hmin : min t (t - d) = t - d := by omega
  have hmax : max t (t - d) = t := by omega
  simp only [keyAtLeast, exchangeStep_length, exchangeStep_getD _ _ _ _ _ _ _ _ ht,
    exchangeSource, hp, hmin, hmax, ht, hact, and_self, if_true, htl, true_and,
    pairOutOfOrder, hup]
  by_cases hu : up
  · simp only [hu, iff_true, decide_True, if_true, decide_eq_true_eq]
    split_ifs <;> omega
  · simp only [hu, iff_true, decide_False, if_false, decide_eq_true_eq, Bool.false_eq_true]
    split_ifs <;> omega


theorem exchangeStep_layer (key : Nat → Int) (c : Int) (pass g dirBlock d R : Nat)
    (idx : List Nat) (m : Nat) (hd : 0 < d) (hB : dirBlock = 2 * d * R)
    (hN : idx.length = m * (2 * d))
    (hact : ∀ u, u < idx.length → workItemOfQuad pass (u / 4) < g) :
    ExchangeLayer d dirBlock (keyAtLeast key c idx)
      (keyAtLeast key c (exchangeStep key 1 pass g dirBlock d idx)) := by
  intro t
  obtain ⟨P, i, hi, hP, hc⟩ := coords_exists d t hd
  rcases hc with ⟨e, hlo⟩ | ⟨e, hhi⟩
  · have hpart : pairPartner d t = t + d := by simp [pairPartner, hlo]
    rw [hpart]
    by_cases hPm : P < m
    · have ht : t + d < idx.length := by
        have := (lt_iff_of_coords d m P (d + i) (by omega)).2 hPm
        omega
      rw [keyAtLeast_exchange_lo key c pass g dirBlock d idx t ((t / dirBlock) % 2 = 0) hlo hd ht
        (hact t (by omega)) Iff.rfl]
      simp only [hlo, true_iff]
    · have ht : ¬ t < idx.length := by
        have := lt_iff_of_coords d m P i (by omega)
        rw [hN, e]; tauto
      have ht2 : ¬ t + d < idx.length := by omega
      simp only [keyAtLeast, exchangeStep_length, ht, ht2, false_and, and_self, or_self, ite_self]
  · have hnlo : ¬ ((t / d) % 2 = 0) := by omega
    have hpart : pairPartner d t = t - d := by simp [pairPartner, hnlo]
    have hge : d ≤ t := by omega
    have e' : t - d = P * (2 * d) + i := by omega
    obtain ⟨_, c2, _⟩ := coords_lo d R P i hi
    obtain ⟨_, c2', _⟩ := coords_hi d R P i hi
    have hdir : (t - d) / dirBlock = t / dirBlock := by
      rw [hB, e', c2]
      conv_rhs => rw [e, c2']
    rw [hpart]
    by_cases hPm : P < m
    · have ht : t < idx.length := by
        have := (lt_iff_of_coords d m P (d + i) (by omega)).2 hPm
        omega
      rw [keyAtLeast_exchange_hi key c pass g dirBlock d idx t ((t / dirBlock) % 2 = 0) hhi hd hge
        ht (hact (t - d) (by omega)) (by rw [hdir])]
      simp only [hnlo, false_iff]
      by_cases hu : (t / dirBlock) % 2 = 0
      · simp only [hu, not_true_eq_false, if_true, if_false]
      · simp only [hu, not_false_eq_true, if_true, if_false]
    · have ht2 : ¬ t - d < idx.length := by
        have := lt_iff_of_coords d m P i (by omega)
        rw [hN, e']; tauto
      have ht : ¬ t < idx.length := by omega
      simp only [keyAtLeast, exchangeStep_length, ht, ht2, false_and, and_self, or_self, ite_self]


theorem exchangeStep_invariant (key : Nat → Int) (pass g dirBlock d R : Nat)
    (idx : List Nat) (m : Nat) (hd : 0 < d) (hB : dirBlock = 2 * d * R)
    (hN : idx.length = m * (2 * d))
    (hact : ∀ u, u < idx.length → workItemOfQuad pass (u / 4) < g)
    (hinv : ∀ c, BitonicBlocks (2 * d) (keyAtLeast key c idx) ∧
      OrderedBlocks (2 * d) dirBlock (keyAtLeast key c idx)) :
    ∀ c, BitonicBlocks d (keyAtLeast key c (exchangeStep key 1 pass g dirBlock d idx)) ∧
      OrderedBlocks d dirBlock (keyAtLeast key c (exchangeStep key 1 pass g dirBlock d idx)) := by
  intro c
  have hl := exchangeStep_layer key c pass g dirBlock d R idx m hd hB hN hact
  exact ⟨layer_bitonic hB (hinv c).1 hl, layer_ordered hd hB (hinv c).1 (hinv c).2 hl⟩

theorem workItem_lt_upper (k p u : Nat) (hp : 1 ≤ p) (hpk : p + 2 ≤ k) (hu : u < 2 ^ k) :
    workItemOfQuad p (u / 4) < 2 ^ k / (2 * 4) := by
  obtain ⟨p', rfl⟩ : ∃ p', p = p' + 1 := ⟨p - 1, by omega⟩
  obtain ⟨e, rfl⟩ : ∃ e, k = p' + 3 + e := ⟨k - (p' + 3), by omega⟩
  have e8 : 2 ^ (p' + 3 + e) = 2 * 4 * (2 ^ e * 2 ^ p') := by ring
  have e4 : 2 ^ (p' + 3 + e) = 4 * (2 ^ e * 2 ^ (p' + 1)) := by ring
  have hq : u / 4 < 2 ^ e * 2 ^ (p' + 1) := by
    rw [Nat.div_lt_iff_lt_mul (by norm_num)]; omega
  have hq2 : u / 4 / 2 ^ (p' + 1) < 2 ^ e := by
    rw [Nat.div_lt_iff_lt_mul (by positivity)]; exact hq
  have hmod : u / 4 % 2 ^ p' < 2 ^ p' := Nat.mod_lt _ (by positivity)
  have hmul : (u / 4 / 2 ^ (p' + 1) + 1) * 2 ^ p' ≤ 2 ^ e * 2 ^ p' :=
    Nat.mul_le_mul_right _ (by omega)
  have hexp : (u / 4 / 2 ^ (p' + 1) + 1) * 2 ^ p' = u / 4 / 2 ^ (p' + 1) * 2 ^ p' + 2 ^ p' := by
    ring
  rw [e8, Nat.mul_div_cancel_left _ (by norm_num : 0 < 2 * 4)]
  simp only [workItemOfQuad, Nat.add_one_ne_zero, if_false, Nat.add_sub_cancel]
  omega

theorem workItem_lt_last (k u : Nat) (hk : 3 ≤ k) (hu : u < 2 ^ k) :
    workItemOfQuad 0 (u / 4) < (2 ^ k / (2 * 4)) <<< 1 := by
  obtain ⟨e, rfl⟩ : ∃ e, k = e + 3 := ⟨k - 3, by omega⟩
  have e8 : 2 ^ (e + 3) = 2 * 4 * 2 ^ e := by ring
  rw [e8, Nat.mul_div_cancel_left _ (by norm_num : 0 < 2 * 4), Nat.shiftLeft_eq]
  simp only [workItemOfQuad, if_true]
  omega

/-- An upper pass (`pass > 0`) of stage `stage`: sub-blocks of `2^(pass+2)` slots become
sub-blocks of `2^(pass+1)` slots. -/
theorem kernelDispatch_upper (key : Nat → Int) (k s p : Nat) (idx : List Nat)
    (hp : 1 ≤ p) (hps : p ≤ s) (hsk : s + 2 ≤ k) (hN : idx.length = 2 ^ k)
    (hinv : ∀ c, BitonicBlocks (2 ^ (p + 2)) (keyAtLeast key c idx) ∧
      OrderedBlocks (2 ^ (p + 2)) (2 ^ (s + 2)) (keyAtLeast key c idx)) :
    ∀ c, BitonicBlocks (2 ^ (p + 1))
        (keyAtLeast key c (kernelDispatch key 1 s p (2 ^ k / (2 * 4)) idx)) ∧
      OrderedBlocks (2 ^ (p + 1)) (2 ^ (s + 2))
        (keyAtLeast key c (kernelDispatch key 1 s p (2 ^ k / (2 * 4)) idx)) := by
  have hp0 : p ≠ 0 := by omega
  have e1 : 2 * 2 ^ p = 2 ^ (p + 1) := by ring
  have e2 : 2 * 2 ^ (s + 1) = 2 ^ (s + 2) := by ring
  have e3 : 2 * 2 ^ (p + 1) = 2 ^ (p + 2) := by ring
  have hdisp : kernelDispatch key 1 s p (2 ^ k / (2 * 4)) idx =
      exchangeStep key 1 p (2 ^ k / (2 * 4)) (2 ^ (s + 2)) (2 ^ (p + 1)) idx := by
    simp only [kernelDispatch, hp0, ne_eq, not_false_eq_true, if_true, e1, e2]
  rw [hdisp]
  obtain ⟨a, rfl⟩ : ∃ a, s = p + a := ⟨s - p, by omega⟩
  obtain ⟨b, rfl⟩ : ∃ b, k = p + 2 + b := ⟨k - (p + 2), by omega⟩
  refine exchangeStep_invariant key p _ (2 ^ (p + a + 2)) (2 ^ (p + 1)) (2 ^ a) idx (2 ^ b)
    (by positivity) (by ring) (by rw [hN]; ring) ?_ ?_
  · intro u hu
    exact workItem_lt_upper (p + 2 + b) p u hp (by omega) (by rw [← hN]; exact hu)
  · rw [e3]; exact hinv


/-- The last pass (`pass = 0`) of a stage `stage ≥ 1`: from bitonic, ordered vectors to sorted
blocks of `2^(stage+2)` slots. -/
theorem kernelDispatch_last (key : Nat → Int) (k s : Nat) (idx : List Nat)
    (hs : 1 ≤ s) (hsk : s + 2 ≤ k) (hN : idx.length = 2 ^ k)
    (hinv : ∀ c, BitonicBlocks 4 (keyAtLeast key c idx) ∧
      OrderedBlocks 4 (2 ^ (s + 2)) (keyAtLeast key c idx)) :
    ∀ c, SortedBlocks (2 ^ (s + 2))
      (keyAtLeast key c (kernelDispatch key 1 s 0 ((2 ^ k / (2 * 4)) <<< 1) idx)) := by
  have hs0 : s ≠ 0 := by omega
  have e2 : 2 * 2 ^ (s + 1) = 2 ^ (s + 2) := by ring
  have hdisp : kernelDispatch key 1 s 0 ((2 ^ k / (2 * 4)) <<< 1) idx =
      exchangeStep key 1 0 ((2 ^ k / (2 * 4)) <<< 1) (2 ^ (s + 2)) 1
        (exchangeStep key 1 0 ((2 ^ k / (2 * 4)) <<< 1) (2 ^ (s + 2)) 2 idx) := by
    simp only [kernelDispatch, hs0, ne_eq, not_true_eq_false, if_false, e2]
  rw [hdisp]
  obtain ⟨b, rfl⟩ : ∃ b, k = b + 3 := ⟨k - 3, by omega⟩
  have hact : ∀ (l : List Nat), l.length = 2 ^ (b + 3) → ∀ u, u < l.length →
      workItemOfQuad 0 (u / 4) < (2 ^ (b + 3) / (2 * 4)) <<< 1 := by
    intro l hl u hu
    exact workItem_lt_last (b + 3) u (by omega) (by rw [← hl]; exact hu)
  have h1 := exchangeStep_invariant key 0 ((2 ^ (b + 3) / (2 * 4)) <<< 1) (2 ^ (s + 2)) 2
    (2 ^ s) idx (2 ^ (b + 1)) (by norm_num) (by ring) (by rw [hN]; ring)
    (hact idx hN) hinv
  have hN1 : (exchangeStep key 1 0 ((2 ^ (b + 3) / (2 * 4)) <<< 1) (2 ^ (s + 2)) 2 idx).length =
      2 ^ (b + 3) := by rw [exchangeStep_length, hN]
  have h2 := exchangeStep_invariant key 0 ((2 ^ (b + 3) / (2 * 4)) <<< 1) (2 ^ (s + 2)) 1
    (2 ^ (s + 1)) _ (2 ^ (b + 2)) (by norm_num) (by ring) (by rw [hN1]; ring)
    (hact _ hN1) h1
  intro c
  exact sortedBlocks_of_ordered _ _ (h2 c).2

/-- The pass of the first stage: from any Index Array to sorted vectors (blocks of `4`
slots). -/
theorem kernelDispatch_first (key : Nat → Int) (k : Nat) (idx : List Nat)
    (hk : 3 ≤ k) (hN : idx.length = 2 ^ k) :
    ∀ c, SortedBlocks 4
      (keyAtLeast key c (kernelDispatch key 1 0 0 ((2 ^ k / (2 * 4)) <<< 1) idx)) := by
  have hdisp : kernelDispatch key 1 0 0 ((2 ^ k / (2 * 4)) <<< 1) idx =
      exchangeStep key 1 0 ((2 ^ k / (2 * 4)) <<< 1) 4 1
        (exchangeStep key 1 0 ((2 ^ k / (2 * 4)) <<< 1) 4 2
          (exchangeStep key 1 0 ((2 ^ k / (2 * 4)) <<< 1) 2 1 idx)) := by
    simp [kernelDispatch]
  rw [hdisp]
  obtain ⟨b, rfl⟩ : ∃ b, k = b + 3 := ⟨k - 3, by omega⟩
  have hact : ∀ (l : List Nat), l.length = 2 ^ (b + 3) → ∀ u, u < l.length →
      workItemOfQuad 0 (u / 4) < (2 ^ (b + 3) / (2 * 4)) <<< 1 := by
    intro l hl u hu
    exact workItem_lt_last (b + 3) u (by omega) (by rw [← hl]; exact hu)
  -- pairs
  have h1 := exchangeStep_invariant key 0 ((2 ^ (b + 3) / (2 * 4)) <<< 1) 2 1 1 idx
    (2 ^ (b + 2)) (by norm_num) (by norm_num) (by rw [hN]; ring) (hact idx hN)
    (fun c => ⟨bitonic_of_sorted 1 _ (sortedBlocks_one _),
      orderedBlocks_self (2 * 1) _⟩)
  have hN1 : (exchangeStep key 1 0 ((2 ^ (b + 3) / (2 * 4)) <<< 1) 2 1 idx).length =
      2 ^ (b + 3) := by rw [exchangeStep_length, hN]
  -- vectors
  have h2 := exchangeStep_invariant key 0 ((2 ^ (b + 3) / (2 * 4)) <<< 1) 4 2 1 _
    (2 ^ (b + 1)) (by norm_num) (by norm_num) (by rw [hN1]; ring) (hact _ hN1)
    (fun c => ⟨bitonic_of_sorted 2 _ (sortedBlocks_of_ordered _ _ (h1 c).2),
      orderedBlocks_self (2 * 2) _⟩)
  have hN2 : (exchangeStep key 1 0 ((2 ^ (b + 3) / (2 * 4)) <<< 1) 4 2
      (exchangeStep key 1 0 ((2 ^ (b + 3) / (2 * 4)) <<< 1) 2 1 idx)).length = 2 ^ (b + 3) := by
    rw [exchangeStep_length, hN1]
  have h3 := exchangeStep_invariant key 0 ((2 ^ (b + 3) / (2 * 4)) <<< 1) 4 1 2 _
    (2 ^ (b + 2)) (by norm_num) (by norm_num) (by rw [hN2]; ring) (hact _ hN2) h2
  intro c
  exact sortedBlocks_of_ordered _ _ (h3 c).2


/-! ## The session sorts -/

theorem runSchedule_append (key : Nat → Int) (a : Nat) (l₁ l₂ : List (Nat × Nat))
    (idx : List Nat) :
    runSchedule key a (l₁ ++ l₂) idx = runSchedule key a l₂ (runSchedule key a l₁ idx) := by
  simp [runSchedule, List.foldl_append]

theorem runSchedule_cons (key : Nat → Int) (a : Nat) (sp : Nat × Nat) (l : List (Nat × Nat))
    (idx : List Nat) :
    runSchedule key a (sp :: l) idx =
      runSchedule key a l
        (kernelDispatch key 1 sp.1 sp.2
          (if sp.2 ≠ 0 then a / (2 * 4) else (a / (2 * 4)) <<< 1) idx) := rfl

theorem runSession_recordsFrom (key : Nat → Int) (sz co a : Nat) (l : List (Nat × Nat)) :
    ∀ j idx, runSession key (recordsFrom sz co a j l) idx = runSchedule key a l idx := by
  induction l with
  | nil => intro j idx; rfl
  | cons sp rest ih =>
    intro j idx
    rw [recordsFrom, runSchedule_cons, runSession, List.foldl_cons, ← runSession, ih]
    rfl

theorem kernelDispatch_length (key : Nat → Int) (direction stage pass g : Nat)
    (idx : List Nat) : (kernelDispatch key direction stage pass g idx).length = idx.length :=
  (kernelDispatch_perm key direction stage pass g idx).length_eq

theorem runSchedule_length (key : Nat → Int) (a : Nat) (l : List (Nat × Nat)) :
    ∀ idx, (runSchedule key a l idx).length = idx.length := by
  induction l with
  | nil => intro idx; rfl
  | cons sp rest ih =>
    intro idx
    rw [runSchedule_cons, ih, kernelDispatch_length]

/-- The passes `p, p-1, ..., 0` of a stage `s ≥ 1` finish the merge of its blocks. -/
theorem stage_passes_sorted (key : Nat → Int) (k s : Nat) (hs : 1 ≤ s) (hsk : s + 2 ≤ k) :
    ∀ p, p ≤ s → ∀ idx : List Nat, idx.length = 2 ^ k →
      (∀ c, BitonicBlocks (2 ^ (p + 2)) (keyAtLeast key c idx) ∧
        OrderedBlocks (2 ^ (p + 2)) (2 ^ (s + 2)) (keyAtLeast key c idx)) →
      ∀ c, SortedBlocks (2 ^ (s + 2))
        (keyAtLeast key c
          (runSchedule key (2 ^ k) ((List.range (p + 1)).reverse.map (fun q => (s, q))) idx)) := by
  intro p
  induction p with
  | zero =>
    intro _ idx hN hinv
    have e : (List.range (0 + 1)).reverse.map (fun q => (s, q)) = [(s, 0)] := rfl
    rw [e, runSchedule_cons]
    exact kernelDispatch_last key k s idx hs hsk hN hinv
  | succ p ih =>
    intro hp idx hN hinv
    have e : (List.range (p + 1 + 1)).reverse = (p + 1) :: (List.range (p + 1)).reverse := by
      rw [List.range_succ, List.reverse_append]; rfl
    rw [e, List.map_cons, runSchedule_cons]
    have hup := kernelDispatch_upper key k s (p + 1) idx (by omega) hp hsk hN hinv
    simp only [ne_eq, Nat.add_one_ne_zero, not_false_eq_true, if_true]
    exact ih (by omega) _ (by rw [kernelDispatch_length, hN]) hup

theorem stage_sorted (key : Nat → Int) (k s : Nat) (hs : 1 ≤ s) (hsk : s + 2 ≤ k)
    (idx : List Nat) (hN : idx.length = 2 ^ k)
    (hsorted : ∀ c, SortedBlocks (2 ^ (s + 1)) (keyAtLeast key c idx)) :
    ∀ c, SortedBlocks (2 ^ (s + 2))
      (keyAtLeast key c (runSchedule key (2 ^ k) (stagePasses s) idx)) := by
  have e : 2 * 2 ^ (s + 1) = 2 ^ (s + 2) := by ring
  refine stage_passes_sorted key k s hs hsk s (le_refl _) idx hN (fun c => ?_)
  rw [← e]
  exact ⟨bitonic_of_sorted _ _ (hsorted c), orderedBlocks_self _ _⟩

theorem schedule_sorted (key : Nat → Int) (k : Nat) (hk : 3 ≤ k) :
    ∀ n, n + 2 ≤ k → ∀ idx : List Nat, idx.length = 2 ^ k →
      ∀ c, SortedBlocks (2 ^ (n + 2))
        (keyAtLeast key c (runSchedule key (2 ^ k) (schedule (n + 1)) idx)) := by
  intro n
  induction n with
  | zero =>
    intro _ idx hN
    have e : schedule (0 + 1) = [(0, 0)] := rfl
    rw [e, runSchedule_cons]
    exact kernelDispatch_first key k idx hk hN
  | succ n ih =>
    intro hn idx hN
    rw [schedule_succ, runSchedule_append]
    exact stage_sorted key k (n + 1) (by omega) (by omega) _
      (by rw [runSchedule_length, hN]) (ih (by omega) idx hN)

theorem sortSession_eq_runSchedule (key : Nat → Int) (a : Nat) (idx : List Nat)
    (ha : a < 24576) :
    sortSession key a idx = runSchedule key a (schedule (numStages a)) idx := by
  have hcap := capacity_exceeded_iff a
  rw [sortSession, bitonicSort_spec, runSession_recordsFrom,
    List.take_of_length_le (by omega)]

theorem keys_ascending_pow_two (key : Nat → Int) (k : Nat) (idx : List Nat)
    (hk : 3 ≤ k) (hcap : 2 ^ k < 24576) (hN : idx.length = 2 ^ k) :
    List.Sorted (fun x y : Int => x ≤ y) (keysInOrder key (sortSession key (2 ^ k) idx)) := by
  obtain ⟨n, rfl⟩ : ∃ n, k = n + 2 := ⟨k - 2, by omega⟩
  have hns : numStages (2 ^ (n + 2)) = n + 1 := numStages_pow_two (n + 2) (by omega)
  rw [sortSession_eq_runSchedule key _ idx hcap, hns]
  have hs := schedule_sorted key (n + 2) hk n (le_refl _) idx hN
  have hlen := runSchedule_length key (2 ^ (n + 2)) (schedule (n + 1)) idx
  generalize runSchedule key (2 ^ (n + 2)) (schedule (n + 1)) idx = out at hs hlen
  rw [List.Sorted, keysInOrder, List.pairwise_iff_getElem]
  intro i j hi hj hij
  rw [List.getElem_map, List.getElem_map]
  rw [List.length_map] at hi hj
  have := sorted_of_sortedBlocks (2 ^ (n + 2)) _ (hs (key out[i])) i j (by omega)
    (by rw [← hN, ← hlen]; exact hj)
    ⟨hi, by rw [List.getD_eq_getElem _ _ hi]⟩
  rw [keyAtLeast, List.getD_eq_getElem _ _ hj] at this
  exact this.2


theorem sortSession_4 (key : Nat → Int) (indexArray : List Nat) :
    sortSession key 4 indexArray = kernelDispatch key 1 0 0 0 indexArray := by
  rw [sortSession, bitonicSort_4]
  rfl

/-- C3, as amended.  For every `arraySize`, every key and every Index Array that is a
permutation of `[0, arraySize)`, the Index Array is still a permutation of `[0, arraySize)`
after the passes issued by `bitonicSort` have been executed in order by the comparator kernel.
When `arraySize = 2^k` with `k ≥ 3` and the run of `bitonicSort` ends without the capacity
assertion failing (that is, for the powers of two from `8` to `16384`), the keys of the elements
in Index Array order are ascending, the direction `bitonicSort` requests. -/
theorem sortSession_sorts (key : Nat → Int) (arraySize : Nat) (indexArray : List Nat)
    (h : indexArray.Perm (List.range arraySize)) :
    (sortSession key arraySize indexArray).Perm (List.range arraySize) ∧
    ∀ k, 3 ≤ k → arraySize = 2 ^ k → (bitonicSort 0 0 arraySize).assertFailed = false →
      List.Sorted (fun x y : Int => x ≤ y)
        (keysInOrder key (sortSession key arraySize indexArray)) := by
  refine ⟨(runSession_perm key _ indexArray).trans h, ?_⟩
  intro k hk hsize hrun
  have hcap : arraySize < 24576 := by
    by_contra hc
    rw [(assertFailed_iff 0 0 arraySize).2 (by omega)] at hrun
    exact Bool.noConfusion hrun
  subst hsize
  have hlen : indexArray.length = 2 ^ k := by rw [h.length_eq, List.length_range]
  exact keys_ascending_pow_two key k indexArray hk hcap hlen

theorem sortSession_sorts_witness :
    [7, 6, 5, 4, 3, 2, 1, 0].Perm (List.range 8) ∧
    (sortSession identityKey 8 [7, 6, 5, 4, 3, 2, 1, 0]).Perm (List.range 8) ∧
    3 ≤ 3 ∧ 8 = 2 ^ 3 ∧ (bitonicSort 0 0 8).assertFailed = false ∧
    List.Sorted (fun x y : Int => x ≤ y)
      (keysInOrder identityKey (sortSession identityKey 8 [7, 6, 5, 4, 3, 2, 1, 0])) :=
  have hrun : (bitonicSort 0 0 8).assertFailed = false := by rw [bitonicSort_8]
  ⟨by decide, (sortSession_sorts identityKey 8 [7, 6, 5, 4, 3, 2, 1, 0] (by decide)).1,
    by decide, by decide, hrun,
    (sortSession_sorts identityKey 8 [7, 6, 5, 4, 3, 2, 1, 0] (by decide)).2 3 (by decide)
      (by decide) hrun⟩

/-- C3 as stated fails at `arraySize = 4 = 2^2`: the session is the single pass `(0, 0)`, and
`bitonicSort` dispatches it with global work size `(4 / 8) << 1 = 0`, so no work item runs and
the Index Array `2, 3, 0, 1` (element `i` keyed `i`) is left as it was, its keys neither
ascending nor descending. -/
theorem sortSession_not_sorted_at_4 :
    (4 : Nat) = 2 ^ 2 ∧ 4 ∣ 4 ∧ [2, 3, 0, 1].Perm (List.range 4) ∧
    (bitonicSort 0 0 4).emitted.map (fun r => r.globalWorkSize) = [0] ∧
    sortSession identityKey 4 [2, 3, 0, 1] = [2, 3, 0, 1] ∧
    ¬ List.Sorted (fun x y : Int => x ≤ y)
      (keysInOrder identityKey (sortSession identityKey 4 [2, 3, 0, 1])) ∧
    ¬ List.Sorted (fun x y : Int => y ≤ x)
      (keysInOrder identityKey (sortSession identityKey 4 [2, 3, 0, 1])) := by
  have h : sortSession identityKey 4 [2, 3, 0, 1] = [2, 3, 0, 1] := by
    rw [sortSession_4]
    decide
  refine ⟨by norm_num, by decide, by decide, ?_, h, ?_, ?_⟩
  · rw [bitonicSort_4]; rfl
  · rw [h]
    decide
  · rw [h]
    decide

end ParticleSorting
